import Mathlib

/-!
Verification of the i18n-table-editor core: the flatten/unflatten key-path
codec (src/jsonUtils.ts), the folder scan (dataCollector.ts, collectDataFlat)
and the table-cell mutation handlers (src/extension.ts).

JSON values are modelled by `Json`; JavaScript objects are association lists
whose for-in order is the list order (the JS reordering of integer-like field
names is not modelled; all concrete inputs below avoid integer-like field
names).  Non-string primitives (numbers, booleans, null) are carried as
`Json.prim r` where `r` is their JS `String(value)` rendering, which is the
only way the source ever consumes them.  Strict-mode TypeErrors raised by
`unflattenJson` (push on a non-array, property writes on primitives, reads on
undefined) are modelled as `Except.error`; property lookups that would hit
prototype members (e.g. a part named "push"), explicit "length" fields used
by the array-extension loop, and named property writes on arrays are outside
the model and mapped to `Except.error` as well — no theorem below depends on
those paths.
-/

namespace I18n

/-- Splitting a character list at a separator, JS `String.split` style:
the result is always nonempty and `"".split` gives `[""]`. -/
def splitChars (sep : Char) : List Char → List (List Char)
  | [] => [[]]
  | c :: cs =>
    if c = sep then [] :: splitChars sep cs
    else
      match splitChars sep cs with
      | [] => [[c]]
      | p :: ps => (c :: p) :: ps

/-- Joining with a separator, inverse of `splitChars`. -/
def joinChars (sep : Char) : List (List Char) → List Char
  | [] => []
  | [p] => p
  | p :: q :: ps => p ++ sep :: joinChars sep (q :: ps)

/-- `key.split('.')` from `unflattenJson`. -/
def splitDot (s : String) : List String :=
  (splitChars '.' s.data).map String.mk

/-- Join part strings with dots (used only in specifications/lemmas). -/
def dotJoin (parts : List String) : String :=
  String.mk (joinChars '.' (parts.map String.data))

/-- Decimal digit characters of a natural number, most significant first.
The first argument is fuel (structural, so the kernel can evaluate it);
`decDigits` supplies enough fuel for the recursion to complete. -/
def decDigitsAux : Nat → Nat → List Char → List Char
  | 0, _, acc => acc
  | fuel + 1, n, acc =>
    let d := Char.ofNat (48 + n % 10)
    if n < 10 then d :: acc else decDigitsAux fuel (n / 10) (d :: acc)

/-- Decimal digits of `n` (JS `String(n)` / template interpolation of an index). -/
def decDigits (n : Nat) : List Char := decDigitsAux (n + 1) n []

/-- Decimal rendering of a natural number as a string. -/
def decStr (n : Nat) : String := String.mk (decDigits n)

/-- Value of a digit list, as `parseInt` computes it on an all-digit string. -/
def digitsVal (ds : List Char) : Nat :=
  ds.foldl (fun a c => a * 10 + (c.toNat - 48)) 0

/-- The regex `^(.+)\[(\d+)\]$` from `unflattenJson`: a part matches iff it is
`name ++ "[" ++ digits ++ "]"` with `name` nonempty and `digits` nonempty,
where the bracket is necessarily the last `[` of the part.  Returns the
captured name and the `parseInt` of the digits. -/
def parseArrayPart (part : String) : Option (String × Nat) :=
  match part.data.reverse with
  | ']' :: rest =>
    let ds := rest.takeWhile Char.isDigit
    if ds.isEmpty then none
    else
      match rest.dropWhile Char.isDigit with
      | '[' :: pre =>
        if pre.isEmpty then none
        else some (String.mk pre.reverse, digitsVal ds.reverse)
      | _ => none
  | _ => none

/-- The JSON data model: strings, objects (field lists in for-in order),
arrays, and other primitives carried by their `String(value)` rendering. -/
inductive Json where
  | str (s : String)
  | obj (fields : List (String × Json))
  | arr (elems : List Json)
  | prim (r : String)
deriving Repr

mutual

/-- Structural (deep) equality of JSON values. -/
def beqJson : Json → Json → Bool
  | .str a, .str b => a = b
  | .obj fs, .obj gs => beqFields fs gs
  | .arr es, .arr ds => beqElems es ds
  | .prim a, .prim b => a = b
  | _, _ => false

/-- Deep equality of field lists (name order significant). -/
def beqFields : List (String × Json) → List (String × Json) → Bool
  | [], [] => true
  | (k, v) :: r, (k', v') :: r' => k = k' && beqJson v v' && beqFields r r'
  | _, _ => false

/-- Deep equality of element lists. -/
def beqElems : List Json → List Json → Bool
  | [], [] => true
  | v :: r, v' :: r' => beqJson v v' && beqElems r r'
  | _, _ => false

end

mutual

theorem beqJson_iff : ∀ a b : Json, beqJson a b = true ↔ a = b
  | .str a, .str b => by simp [beqJson]
  | .obj fs, .obj gs => by simp [beqJson, beqFields_iff fs gs]
  | .arr es, .arr ds => by simp [beqJson, beqElems_iff es ds]
  | .prim a, .prim b => by simp [beqJson]
  | .str _, .obj _ => by simp [beqJson]
  | .str _, .arr _ => by simp [beqJson]
  | .str _, .prim _ => by simp [beqJson]
  | .obj _, .str _ => by simp [beqJson]
  | .obj _, .arr _ => by simp [beqJson]
  | .obj _, .prim _ => by simp [beqJson]
  | .arr _, .str _ => by simp [beqJson]
  | .arr _, .obj _ => by simp [beqJson]
  | .arr _, .prim _ => by simp [beqJson]
  | .prim _, .str _ => by simp [beqJson]
  | .prim _, .obj _ => by simp [beqJson]
  | .prim _, .arr _ => by simp [beqJson]

theorem beqFields_iff : ∀ a b : List (String × Json), beqFields a b = true ↔ a = b
  | [], [] => by simp [beqFields]
  | (k, v) :: r, (k', v') :: r' => by
    simp [beqFields, beqJson_iff v v', beqFields_iff r r', and_assoc]
  | [], _ :: _ => by simp [beqFields]
  | _ :: _, [] => by simp [beqFields]

theorem beqElems_iff : ∀ a b : List Json, beqElems a b = true ↔ a = b
  | [], [] => by simp [beqElems]
  | v :: r, v' :: r' => by simp [beqElems, beqJson_iff v v', beqElems_iff r r']
  | [], _ :: _ => by simp [beqElems]
  | _ :: _, [] => by simp [beqElems]

end

instance : DecidableEq Json := fun a b =>
  decidable_of_iff (beqJson a b = true) (beqJson_iff a b)

/-- First-occurrence association lookup: JS property read on a plain object. -/
def assocGet {α : Type} : List (String × α) → String → Option α
  | [], _ => none
  | (k', v) :: rest, k => if k' = k then some v else assocGet rest k

/-- JS property write on a plain object: update in place (keeping the
original position) or append a fresh key at the end. -/
def assocSet {α : Type} : List (String × α) → String → α → List (String × α)
  | [], k, v => [(k, v)]
  | (k', w) :: rest, k, v =>
    if k' = k then (k, v) :: rest else (k', w) :: assocSet rest k v

/-- JS `delete obj[k]`: remove the key, keeping the order of the others. -/
def assocDelete {α : Type} (m : List (String × α)) (k : String) : List (String × α) :=
  m.filter (fun kv => kv.1 ≠ k)

/-- `Object.assign(res, adds)`: fold the additions over the target. -/
def jsAssign (res adds : List (String × String)) : List (String × String) :=
  adds.foldl (fun a kv => assocSet a kv.1 kv.2) res

/-- `prefix ? prefix + "." + key : key` from `flattenJson`. -/
def mkKey (p k : String) : String := if p = "" then k else p ++ "." ++ k

/-- The array-element key `newKey + "[" + index + "]"` from `flattenJson`. -/
def idxKey (nk : String) (i : Nat) : String := nk ++ "[" ++ decStr i ++ "]"

/-- The for-in loop of `flattenJson` applied to a string value: JS iterates
the character indices and yields one-character strings.  (Surrogate pairs of
astral characters are not modelled; this path is degenerate and unused by
every claim.) -/
def flattenStrForIn : List Char → String → Nat → List (String × String) → List (String × String)
  | [], _, _, res => res
  | c :: rest, p, i, res =>
    flattenStrForIn rest p (i + 1) (assocSet res (mkKey p (decStr i)) (String.mk [c]))

mutual

/-- The for-in loop of `flattenJson` over an object's fields. -/
def flattenFields : List (String × Json) → String → List (String × String) → List (String × String)
  | [], _, res => res
  | (k, w) :: rest, p, res => flattenFields rest p (flattenVal res (mkKey p k) w)

/-- One for-in iteration of `flattenJson`: dispatch on `typeof value`. -/
def flattenVal (res : List (String × String)) (nk : String) : Json → List (String × String)
  | .str s => assocSet res nk s
  | .obj fs => jsAssign res (flattenFields fs nk [])
  | .arr es => flattenItems res nk 0 es
  | .prim r => assocSet res nk r

/-- The `value.forEach((item, index) => ...)` branch for array values. -/
def flattenItems (res : List (String × String)) (nk : String) (i : Nat) : List Json → List (String × String)
  | [] => res
  | item :: rest => flattenItems (flattenItemStep res nk i item) nk (i + 1) rest

/-- One array item: strings are recorded at `newKey[index]`, containers
recurse via `flattenJson(item, newKey[index])`, other primitives are
`String(item)`-coerced. -/
def flattenItemStep (res : List (String × String)) (nk : String) (i : Nat) : Json → List (String × String)
  | .str s => assocSet res (idxKey nk i) s
  | .obj fs => jsAssign res (flattenFields fs (idxKey nk i) [])
  | .arr es => jsAssign res (flattenArrForIn es (idxKey nk i) 0 [])
  | .prim r => assocSet res (idxKey nk i) r

/-- `flattenJson` called with an array argument: the top-level for-in loop
runs over the indices, so keys use dot notation (`p + "." + i`), and each
element goes through the same `typeof` dispatch. -/
def flattenArrForIn : List Json → String → Nat → List (String × String) → List (String × String)
  | [], _, _, res => res
  | e :: rest, p, i, res => flattenArrForIn rest p (i + 1) (flattenVal res (mkKey p (decStr i)) e)

end

/-- `flattenJson(obj, prefix)` from src/jsonUtils.ts. -/
def flattenJson (j : Json) (p : String) : List (String × String) :=
  match j with
  | .obj fs => flattenFields fs p []
  | .arr es => flattenArrForIn es p 0 []
  | .str s => flattenStrForIn s.data p 0 []
  | .prim _ => []

/-- JS truthiness of a property read (`!current[k]`): undefined and the empty
string are falsy; objects and arrays are always truthy.  For `prim` only the
renderings that actually occur (decimal array lengths) matter: `"0"` is
falsy. -/
def jsTruthy : Option Json → Bool
  | none => false
  | some (.str s) => !(s = "")
  | some (.obj _) => true
  | some (.arr _) => true
  | some (.prim r) => !(r = "0" || r = "" || r = "false" || r = "null" || r = "NaN")

/-- Canonical decimal index parse (JS array index property names). -/
def decIndex : String → Option Nat
  | s =>
    if s.data ≠ [] ∧ (∀ c ∈ s.data, c.isDigit) ∧ (s.data.head? = some '0' → s.data = ['0'])
    then some (digitsVal s.data) else none

/-- JS property read `current[k]` on an arbitrary value.  Prototype members
(array/string methods) are not modelled and read as undefined. -/
def getProp : Json → String → Option Json
  | .obj fs, k => assocGet fs k
  | .arr es, k =>
    match decIndex k with
    | some i => es.get? i
    | none => if k = "length" then some (.prim (decStr es.length)) else none
  | .str s, k =>
    match decIndex k with
    | some i => (s.data.get? i).map (fun c => .str (String.mk [c]))
    | none => if k = "length" then some (.prim (decStr s.data.length)) else none
  | .prim _, _ => none

/-- JS property write `current[k] = v`.  On strings and primitives a
strict-mode TypeError is raised; named property writes on arrays are outside
the model. -/
def setProp : Json → String → Json → Except String Json
  | .obj fs, k, v => .ok (.obj (assocSet fs k v))
  | .arr _, _, _ => .error "unmodeled: named property write on an array"
  | .str _, _, _ => .error "TypeError: cannot create property on a string"
  | .prim _, _, _ => .error "TypeError: cannot create property on a primitive"

/-- The `while (current[arrayKey].length <= arrayIndex) push(filler)` loop.
Arrays are extended with the filler; a string that is too short raises
TypeError (`push` is not a function); objects and primitives have no own
`length` (explicit "length" fields are outside the model), so the comparison
is `undefined <= idx`, false, and the loop is skipped. -/
def ensureLen (filler : Json) (idx : Nat) : Json → Except String Json
  | .arr es =>
    .ok (.arr (if es.length ≤ idx then es ++ List.replicate (idx + 1 - es.length) filler else es))
  | .str s =>
    if s.data.length ≤ idx then .error "TypeError: push is not a function" else .ok (.str s)
  | .obj fs => .ok (.obj fs)
  | .prim r => .ok (.prim r)

/-- Element read `current[arrayKey][arrayIndex]` (the index is a number). -/
def getIdx : Json → Nat → Option Json
  | .arr es, i => es.get? i
  | .obj fs, i => assocGet fs (decStr i)
  | .str s, i => (s.data.get? i).map (fun c => .str (String.mk [c]))
  | .prim _, _ => none

/-- Element write `current[arrayKey][arrayIndex] = v`.  The array case is
always in bounds after `ensureLen`; on an object it creates the decimal
field; on strings and primitives it raises a strict-mode TypeError. -/
def setIdx : Json → Nat → Json → Except String Json
  | .arr es, i, v =>
    if i < es.length then .ok (.arr (es.set i v)) else .error "unmodeled: sparse array write"
  | .obj fs, i, v => .ok (.obj (assocSet fs (decStr i) v))
  | .str _, _, _ => .error "TypeError: cannot assign to a string index"
  | .prim _, _, _ => .error "TypeError: cannot create property on a primitive"

/-- One key of `unflattenJson`: walk the dot-split parts, mirroring the
source's four branches (array/plain crossed with final/intermediate).
Errors short-circuit, as a thrown TypeError aborts the whole call. -/
def step : Json → List String → String → Except String Json
  | current, [], _ => .ok current
  | current, part :: rest, v =>
    match parseArrayPart part, rest with
    | some (name, idx), [] =>
      match (if jsTruthy (getProp current name) then .ok current
             else setProp current name (.arr [])) with
      | .error e => .error e
      | .ok cur1 =>
        match ensureLen (.str "") idx ((getProp cur1 name).getD (.prim "undefined")) with
        | .error e => .error e
        | .ok a2 =>
          match setIdx a2 idx (.str v) with
          | .error e => .error e
          | .ok a3 => setProp cur1 name a3
    | some (name, idx), _ :: _ =>
      match (if jsTruthy (getProp current name) then .ok current
             else setProp current name (.arr [])) with
      | .error e => .error e
      | .ok cur1 =>
        match ensureLen (.obj []) idx ((getProp cur1 name).getD (.prim "undefined")) with
        | .error e => .error e
        | .ok a2 =>
          match getIdx a2 idx with
          | none => .error "TypeError: cannot read properties of undefined"
          | some elem =>
            match step elem rest v with
            | .error e => .error e
            | .ok elem2 =>
              match setIdx a2 idx elem2 with
              | .error e => .error e
              | .ok a3 => setProp cur1 name a3
    | none, [] => setProp current part (.str v)
    | none, _ :: _ =>
      match getProp current part with
      | some (.obj fs) =>
        match step (.obj fs) rest v with
        | .error e => .error e
        | .ok c2 => setProp current part c2
      | _ =>
        match step (.obj []) rest v with
        | .error e => .error e
        | .ok c2 => setProp current part c2

/-- `unflattenJson(flat)` from src/jsonUtils.ts: fold the keys in for-in
order into an initially empty object. -/
def unflattenJson (flat : List (String × String)) : Except String Json :=
  flat.foldlM (fun acc kv => step acc (splitDot kv.1) kv.2) (.obj [])

/-! ## Folder scan (collectDataFlat) -/

/-- UTF-16 code units of a character, as JS strings store and compare them. -/
def charUtf16 (c : Char) : List Nat :=
  if c.toNat < 65536 then [c.toNat]
  else [55296 + (c.toNat - 65536) / 1024, 56320 + (c.toNat - 65536) % 1024]

/-- UTF-16 code-unit sequence of a string. -/
def utf16Units (s : String) : List Nat := s.data.flatMap charUtf16

/-- The default JS `Array.prototype.sort` comparison on strings: ordinal,
lexicographic on UTF-16 code units. -/
def keyLe (a b : String) : Prop := utf16Units a ≤ utf16Units b

instance : DecidableRel keyLe := fun a b =>
  inferInstanceAs (Decidable (utf16Units a ≤ utf16Units b))

instance : IsTotal String keyLe := ⟨fun a b => le_total (utf16Units a) (utf16Units b)⟩

instance : IsTrans String keyLe :=
  ⟨fun _ _ _ h h' => le_trans (α := List Nat) h h'⟩

/-- The result shape of `collectDataFlat`. -/
structure ScanResult where
  languages : List String
  keys : List String
  data : List (String × List (String × String))
deriving Repr

/-- `flattened.forEach(k => allKeys.add(k))`: a JS `Set` keeps insertion
order and ignores keys already present. -/
def addKeysFrom (ks : List String) (flat : List (String × String)) : List String :=
  flat.foldl (fun ks kv => if kv.1 ∈ ks then ks else ks ++ [kv.1]) ks

/-- One iteration of the `languages.forEach` loop of `collectDataFlat`: a
language whose source parsed is flattened and recorded and its keys join the
set; a read/parse failure only surfaces a message (the language is recorded
nowhere). -/
def collectStep (acc : List (String × List (String × String)) × List String) :
    String × Option Json → List (String × List (String × String)) × List String
  | (lang, some j) =>
    let flat := flattenJson j ""
    (acc.1 ++ [(lang, flat)], addKeysFrom acc.2 flat)
  | (_, none) => acc

/-- `collectDataFlat` from dataCollector.ts.  A source is a language name
paired with its parse result (`none` models a read or JSON-parse failure).
`Array.from(allKeys).sort()` is modelled by a sort with respect to the
ordinal order `keyLe`; as the key set has no duplicates this determines the
sorted list uniquely. -/
def collectDataFlat (sources : List (String × Option Json)) : ScanResult :=
  let acc := sources.foldl collectStep ([], [])
  { languages := sources.map (fun s => s.1)
    keys := acc.2.insertionSort keyLe
    data := acc.1 }

/-! ## Table-cell mutation handlers (extension.ts message switch) -/

/-- The catalog shown for a language: parse the file and flatten it. -/
def catalogOf (file : Json) : List (String × String) := flattenJson file ""

/-- Write-back step shared by all mutating handlers: serialize
`unflattenJson(flat)` over the old file; if unflatten throws, the error is
caught, a message is shown, and the file is left unchanged. -/
def rewriteWith (file : Json) (flat : List (String × String)) : Json :=
  match unflattenJson flat with
  | .ok j => j
  | .error _ => file

/-- The `addKey` handler body for one language: `flat[newKey] = ''`
(unconditionally), then unflatten and rewrite. -/
def addKeyFile (k : String) (file : Json) : Json :=
  rewriteWith file (assocSet (catalogOf file) k "")

/-- `addKey` over every language file. -/
def addKeyFiles (k : String) (files : List (String × Json)) : List (String × Json) :=
  files.map (fun lf => (lf.1, addKeyFile k lf.2))

/-- The `deleteKey` handler body for one language: `delete flat[key]`, then
unflatten and rewrite. -/
def deleteKeyFile (k : String) (file : Json) : Json :=
  rewriteWith file (assocDelete (catalogOf file) k)

/-- `deleteKey` over every language file. -/
def deleteKeyFiles (k : String) (files : List (String × Json)) : List (String × Json) :=
  files.map (fun lf => (lf.1, deleteKeyFile k lf.2))

/-- The in-memory mutation of the `duplicateKey` handler:
`if (flat[originalKey]) flat[newKey] = flat[originalKey]` — note the
truthiness test, which skips the copy when the source value is the empty
string. -/
def duplicateKeyFlat (src newKey : String) (flat : List (String × String)) :
    List (String × String) :=
  match assocGet flat src with
  | some v => if v = "" then flat else assocSet flat newKey v
  | none => flat

/-- The `duplicateKey` handler body for one language. -/
def duplicateKeyFile (src newKey : String) (file : Json) : Json :=
  rewriteWith file (duplicateKeyFlat src newKey (catalogOf file))

/-- `duplicateKey` over every language file. -/
def duplicateKeyFiles (src newKey : String) (files : List (String × Json)) :
    List (String × Json) :=
  files.map (fun lf => (lf.1, duplicateKeyFile src newKey lf.2))

/-- The in-memory mutation of the `saveCell` handler:
`flat[message.key] = message.value`. -/
def setValueFlat (k v : String) (flat : List (String × String)) : List (String × String) :=
  assocSet flat k v

/-- The `saveCell` handler: only the addressed language's file is read,
mutated and rewritten; every other language file is untouched. -/
def saveCellFiles (lang k v : String) (files : List (String × Json)) : List (String × Json) :=
  files.map (fun lf =>
    if lf.1 = lang then (lf.1, rewriteWith lf.2 (setValueFlat k v (catalogOf lf.2))) else lf)

/-- A key all of whose dot-parts are plain (none matches the array-element
regex of `unflattenJson`). -/
def allPlainKey (k : String) : Bool :=
  (splitDot k).all (fun part => (parseArrayPart part).isNone)

/-- A key all of whose dot-parts are plain and nonempty (a leading dot
would make the flatten prefix chain collapse the empty first segment). -/
def goodPlainKey (k : String) : Bool :=
  (splitDot k).all (fun part => !(part = "") && (parseArrayPart part).isNone)

mutual

/-- A document containing no arrays (as built by array-free unflattening). -/
def noArr : Json → Bool
  | .str _ => true
  | .prim _ => true
  | .arr _ => false
  | .obj fs => noArrFields fs

/-- `noArr` on a field list. -/
def noArrFields : List (String × Json) → Bool
  | [] => true
  | kv :: rest => noArr kv.2 && noArrFields rest

end

mutual

/-- Field-name paths from a value down to each of its leaves (for array-free
documents; arrays contribute nothing and are excluded by `noArr`). -/
def leafPaths : Json → List (List String)
  | .str _ => [[]]
  | .prim _ => [[]]
  | .arr _ => []
  | .obj fs => leafPathsFields fs

/-- Leaf paths of a field list, in field order. -/
def leafPathsFields : List (String × Json) → List (List String)
  | [] => []
  | (n, v) :: rest => (leafPaths v).map (fun π => n :: π) ++ leafPathsFields rest

end

/-- The key that `flattenJson` builds by chaining `mkKey` along a field
path starting from the prefix `p`. -/
def chainKey (p : String) : List String → String
  | [] => p
  | n :: π => chainKey (mkKey p n) π

/-- One path segment of a flattened key: a plain field or an array element
reference `name[index]`. -/
inductive Seg where
  | fld (n : String)
  | idx (n : String) (i : Nat)
deriving Repr, DecidableEq

/-- The dot-part that a segment contributes to a key. -/
def segStr : Seg → String
  | .fld n => n
  | .idx n i => idxKey n i

/-- The field name owning a segment. -/
def segName : Seg → String
  | .fld n => n
  | .idx n _ => n

/-- A field name for which the round-trip is unambiguous: nonempty, free of
dots, and not itself matching the array-element pattern. -/
def goodName (n : String) : Bool :=
  !(n = "") && !(n.data.contains '.') && (parseArrayPart n).isNone

/-- Segments whose rendering parses back to themselves. -/
def goodSeg : Seg → Bool
  | .fld n => goodName n
  | .idx n _ => goodName n

mutual

/-- Values whose flatten/unflatten round-trip is exact when stored under an
object field: strings; nonempty objects with good, distinct field names and
good values; nonempty arrays of strings or good objects.  Non-string
primitives and nested arrays are excluded (their round-trip changes shape,
a documented limitation of the source). -/
def goodVal : Json → Bool
  | .str _ => true
  | .prim _ => false
  | .obj fs => !fs.isEmpty && decide ((fs.map Prod.fst).Nodup) && goodFieldList fs
  | .arr es => !es.isEmpty && goodElemList es

/-- `goodVal` over a field list, with good names. -/
def goodFieldList : List (String × Json) → Bool
  | [] => true
  | (n, v) :: rest => goodName n && goodVal v && goodFieldList rest

/-- Array elements that round-trip: strings and good objects. -/
def goodElem : Json → Bool
  | .str _ => true
  | .prim _ => false
  | .arr _ => false
  | .obj fs => !fs.isEmpty && decide ((fs.map Prod.fst).Nodup) && goodFieldList fs

/-- `goodElem` over an element list. -/
def goodElemList : List Json → Bool
  | [] => true
  | e :: rest => goodElem e && goodElemList rest

end

/-- A top-level document in the exact round-trip domain: a JSON object
(possibly empty at the root) with good, distinct field names and good
values. -/
def goodRoot (fs : List (String × Json)) : Bool :=
  decide ((fs.map Prod.fst).Nodup) && goodFieldList fs

mutual

/-- The flat pairs that `flattenJson` emits for the value of field `n`
under the already-built key `p` — same contents as `flattenVal`, but as a
plain concatenation (no accumulator), convenient for induction. -/
def specVal (p n : String) : Json → List (String × String)
  | .str s => [(mkKey p n, s)]
  | .prim r => [(mkKey p n, r)]
  | .obj hs => specFields (mkKey p n) hs
  | .arr es => specElems (mkKey p n) 0 es

/-- Flat pairs of a field list under prefix `p`. -/
def specFields (p : String) : List (String × Json) → List (String × String)
  | [] => []
  | (n, v) :: rest => specVal p n v ++ specFields p rest

/-- Flat pairs of the array elements of the value keyed `nk`, from index
`i` on. -/
def specElems (nk : String) (i : Nat) : List Json → List (String × String)
  | [] => []
  | e :: rest => specElem nk i e ++ specElems nk (i + 1) rest

/-- Flat pairs of one array element (nested arrays are outside the good
domain and contribute nothing here). -/
def specElem (nk : String) (i : Nat) : Json → List (String × String)
  | .str s => [(idxKey nk i, s)]
  | .prim r => [(idxKey nk i, r)]
  | .obj hs => specFields (idxKey nk i) hs
  | .arr _ => []

end

/-- Replace the subtree reached by descending the segment path (junk when
the path does not descend; only used under `Descends`). -/
def replacePath : Json → List Seg → Json → Json
  | _, [], u => u
  | .obj g, .fld n :: ρ, u =>
    match assocGet g n with
    | some w => .obj (assocSet g n (replacePath w ρ u))
    | none => .obj g
  | .obj g, .idx n i :: ρ, u =>
    match assocGet g n with
    | some (.arr es) =>
      match es.get? i with
      | some e => .obj (assocSet g n (.arr (es.set i (replacePath e ρ u))))
      | none => .obj g
    | _ => .obj g
  | t, _ :: _, _ => t

/-- The walk `unflattenJson` performs along already-built structure: each
field segment finds a plain object, each index segment finds an array
element that is already present (no padding needed). -/
inductive Descends : Json → List Seg → Json → Prop where
  | nil (t : Json) : Descends t [] t
  | fld (g : List (String × Json)) (n : String) (ρ : List Seg)
      (w : List (String × Json)) (u : Json) :
      assocGet g n = some (.obj w) → Descends (.obj w) ρ u →
      Descends (.obj g) (.fld n :: ρ) u
  | idx (g : List (String × Json)) (n : String) (i : Nat) (es : List Json)
      (e u : Json) (ρ : List Seg) :
      assocGet g n = some (.arr es) → es.get? i = some e → Descends e ρ u →
      Descends (.obj g) (.idx n i :: ρ) u

/-- Folding the keys of a flat map into a partially built document — the
loop body of `unflattenJson` from an arbitrary start. -/
def foldT (t : Json) (L : List (String × String)) : Except String Json :=
  L.foldlM (fun acc kv => step acc (splitDot kv.1) kv.2) t

/-! ## Theorems -/

instance : DecidableEq (Except String Json) := fun a b =>
  match a, b with
  | .ok x, .ok y => decidable_of_iff (x = y) (by simp)
  | .error x, .error y => decidable_of_iff (x = y) (by simp)
  | .ok _, .error _ => isFalse (by simp)
  | .error _, .ok _ => isFalse (by simp)

theorem assocGet_set_self {α : Type} (m : List (String × α)) (k : String) (v : α) :
    assocGet (assocSet m k v) k = some v := by
  induction m with
  | nil => simp [assocSet, assocGet]
  | cons kv rest ih =>
    obtain ⟨k', w⟩ := kv
    by_cases h : k' = k
    · simp [assocSet, assocGet, h]
    · simp [assocSet, assocGet, h, ih]

theorem assocGet_set_ne {α : Type} (m : List (String × α)) (k k' : String) (v : α)
    (h : k' ≠ k) : assocGet (assocSet m k v) k' = assocGet m k' := by
  have h2 : ¬ k = k' := fun e => h e.symm
  induction m with
  | nil => simp [assocSet, assocGet, h2]
  | cons kv rest ih =>
    obtain ⟨k₀, w⟩ := kv
    by_cases h0 : k₀ = k
    · subst h0
      simp [assocSet, assocGet, h2]
    · simp only [assocSet, if_neg h0, assocGet]
      by_cases h1 : k₀ = k'
      · simp [h1]
      · simp [h1, ih]

theorem assocGet_delete_self {α : Type} (m : List (String × α)) (k : String) :
    assocGet (assocDelete m k) k = none := by
  induction m with
  | nil => simp [assocDelete, assocGet]
  | cons kv rest ih =>
    obtain ⟨k₀, w⟩ := kv
    by_cases h : k₀ = k
    · simpa [assocDelete, h] using ih
    · simpa [assocDelete, assocGet, h] using ih

theorem assocGet_isSome_iff {α : Type} (m : List (String × α)) (k : String) :
    (assocGet m k).isSome = true ↔ k ∈ m.map Prod.fst := by
  induction m with
  | nil => simp [assocGet]
  | cons kv rest ih =>
    obtain ⟨k₀, w⟩ := kv
    by_cases h : k₀ = k
    · simp [assocGet, h]
    · simpa [assocGet, h, Ne.symm h] using ih

theorem assocGet_eq_none_iff {α : Type} (m : List (String × α)) (k : String) :
    assocGet m k = none ↔ k ∉ m.map Prod.fst := by
  rw [← assocGet_isSome_iff]
  cases assocGet m k <;> simp

/-- A successful `setProp` always returns an object. -/
theorem setProp_ok_obj (c : Json) (k : String) (v r : Json) (h : setProp c k v = .ok r) :
    ∃ g', r = .obj g' := by
  cases c with
  | obj fs =>
    refine ⟨assocSet fs k v, ?_⟩
    simpa [setProp] using h.symm
  | arr es => simp [setProp] at h
  | str s => simp [setProp] at h
  | prim p => simp [setProp] at h

/-- A successful `step` either leaves the current value untouched (empty
part list, unreachable from `splitDot`) or returns an object: every branch
of the source writes back through a property assignment on `current`. -/
theorem step_ok_shape (current : Json) (parts : List String) (v : String) (r : Json)
    (h : step current parts v = .ok r) : r = current ∨ ∃ g', r = .obj g' := by
  cases parts with
  | nil =>
    rw [step.eq_def] at h
    exact .inl (Except.ok.inj h).symm
  | cons part rest =>
    right
    rw [step.eq_def] at h
    dsimp only at h
    repeat' split at h
    all_goals first
      | exact setProp_ok_obj _ _ _ _ h
      | exact absurd h (by simp)

/-- Folding `step` from an object can only succeed with an object. -/
theorem foldSteps_ok_obj (flat : List (String × String)) :
    ∀ (g : List (String × Json)) (r : Json),
    flat.foldlM (fun acc kv => step acc (splitDot kv.1) kv.2) (Json.obj g) = .ok r →
    ∃ g', r = .obj g' := by
  induction flat with
  | nil =>
    intro g r h
    simp only [List.foldlM_nil] at h
    exact ⟨g, by simpa using (Except.ok.inj h).symm⟩
  | cons kv rest ih =>
    intro g r h
    simp only [List.foldlM_cons] at h
    rcases h1 : step (Json.obj g) (splitDot kv.1) kv.2 with e | a
    · rw [h1] at h
      exact Except.noConfusion h
    · rw [h1] at h
      rcases step_ok_shape _ _ _ _ h1 with he | ⟨g', hg'⟩
      · exact ih g r (he ▸ h)
      · exact ih g' r (hg' ▸ h)

/-- C2 counterexample: the `addKey` handler sets `flat[newKey] = ''`
unconditionally, so a language that already had `"a" ↦ "hello"` ends up with
`"a" ↦ ""` after the command — the existing value is clobbered, not
preserved. -/
theorem addKey_clobbers_existing_value :
    assocGet (catalogOf (Json.obj [("a", Json.str "hello")])) "a" = some "hello" ∧
    assocGet (catalogOf (addKeyFile "a" (Json.obj [("a", Json.str "hello")]))) "a" = some "" := by
  constructor
  · decide
  · decide

/-- C2 (amended): after the in-memory `addKey(k)` mutation of a language's
flat catalog, `k` is mapped to the empty string — overwriting any previous
value — and every other key keeps its previous value. -/
theorem addKey_sets_key_to_empty (file : Json) (k k' : String) (hne : k' ≠ k) :
    assocGet (assocSet (catalogOf file) k "") k = some "" ∧
    assocGet (assocSet (catalogOf file) k "") k' = assocGet (catalogOf file) k' :=
  ⟨assocGet_set_self _ _ _, assocGet_set_ne _ _ _ _ hne⟩

theorem addKey_sets_key_to_empty_witness :
    assocGet (assocSet (catalogOf (Json.obj [("b", Json.str "v")])) "a" "") "a" = some "" ∧
    assocGet (assocSet (catalogOf (Json.obj [("b", Json.str "v")])) "a" "") "b" =
      assocGet (catalogOf (Json.obj [("b", Json.str "v")])) "b" :=
  addKey_sets_key_to_empty (Json.obj [("b", Json.str "v")]) "a" "b" (by decide)

/-- C4 counterexample: `duplicateKey` guards the copy with the truthiness
test `if (flat[originalKey])`, so a source key whose value is the empty
string is not copied: after `duplicateKey("s", "t")` on a language whose
catalog maps `"s"` to `""`, the new key `"t"` is absent. -/
theorem duplicateKey_skips_empty_value :
    assocGet (catalogOf (Json.obj [("s", Json.str "")])) "s" = some "" ∧
    assocGet (catalogOf (duplicateKeyFile "s" "t" (Json.obj [("s", Json.str "")]))) "t" =
      none := by
  constructor
  · decide
  · decide

/-- C4 (amended): the in-memory `duplicateKey(src, newKey)` mutation copies
the source value to `newKey` exactly when the source value is present and
truthy (non-empty); a flat catalog in which `src` is absent, or present with
the empty string, is left completely unchanged. -/
theorem duplicateKey_copies_truthy_only (flat : List (String × String)) (src newKey v : String)
    (hv : v ≠ "") :
    (assocGet flat src = some v → assocGet (duplicateKeyFlat src newKey flat) newKey = some v) ∧
    (assocGet flat src = none → duplicateKeyFlat src newKey flat = flat) ∧
    (assocGet flat src = some "" → duplicateKeyFlat src newKey flat = flat) := by
  refine ⟨fun h => ?_, fun h => ?_, fun h => ?_⟩
  · simp [duplicateKeyFlat, h, hv, assocGet_set_self]
  · simp [duplicateKeyFlat, h]
  · simp [duplicateKeyFlat, h]

theorem duplicateKey_copies_truthy_only_witness :
    (assocGet [("a", "x")] "a" = some "x" →
      assocGet (duplicateKeyFlat "a" "b" [("a", "x")]) "b" = some "x") ∧
    (assocGet [("a", "x")] "a" = none → duplicateKeyFlat "a" "b" [("a", "x")] = [("a", "x")]) ∧
    (assocGet [("a", "x")] "a" = some "" → duplicateKeyFlat "a" "b" [("a", "x")] = [("a", "x")]) :=
  duplicateKey_copies_truthy_only [("a", "x")] "a" "b" "x" (by decide)

/-- C9: the `saveCell` handler sets the addressed language's flat catalog at
the key to the new value (creating the key when absent), and it maps every
entry of the file list whose language differs from the addressed one to
itself — no other language is touched. -/
theorem saveCell_sets_one_language (files : List (String × Json)) (lang k v : String)
    (f : Json) (i : Nat) (lf : String × Json)
    (h1 : files[i]? = some lf) (h2 : lf.1 ≠ lang) :
    assocGet (setValueFlat k v (catalogOf f)) k = some v ∧
    (saveCellFiles lang k v files)[i]? = some lf := by
  refine ⟨assocGet_set_self _ _ _, ?_⟩
  rw [saveCellFiles, List.getElem?_map, h1]
  simp [h2]

theorem saveCell_sets_one_language_witness :
    assocGet (setValueFlat "k" "v" (catalogOf (Json.obj [("a", Json.str "x")]))) "k" =
      some "v" ∧
    (saveCellFiles "en" "k" "v"
      [("en", Json.obj [("a", Json.str "x")]), ("vi", Json.obj [])])[1]? =
      some ("vi", Json.obj []) :=
  saveCell_sets_one_language
    [("en", Json.obj [("a", Json.str "x")]), ("vi", Json.obj [])] "en" "k" "v"
    (Json.obj [("a", Json.str "x")]) 1 ("vi", Json.obj []) (by decide) (by decide)

/-- C10 counterexample: `unflattenJson` does not return at all on every flat
map — on `{"b": "u", "b[2]": "v"}` the array branch calls `push` on the
string `"u"` and throws a TypeError, so no top-level object is produced. -/
theorem unflatten_can_throw :
    unflattenJson [("b", "u"), ("b[2]", "v")] =
      .error "TypeError: push is not a function" := by
  decide

/-- C10 (amended): whenever `unflattenJson` returns (does not throw), the
returned document is a JSON object at the top level — never an array, a
string, or a primitive; in particular the empty map and maps whose keys
start with array-style segments produce objects. -/
theorem unflatten_returns_object (flat : List (String × String)) (j : Json)
    (h : unflattenJson flat = .ok j) : ∃ fs, j = Json.obj fs :=
  foldSteps_ok_obj flat [] j h

theorem unflatten_returns_object_witness :
    ∃ fs, Json.obj [("x", Json.arr [Json.str "a"])] = Json.obj fs :=
  unflatten_returns_object [("x[0]", "a")] (Json.obj [("x", Json.arr [Json.str "a"])])
    (by decide)

/-- The data accumulator of `collectDataFlat` collects exactly the parsed
sources, in order, flattened. -/
theorem collect_data_eq (sources : List (String × Option Json)) :
    ∀ d0 k0, (sources.foldl collectStep (d0, k0)).1 =
      d0 ++ sources.filterMap (fun s => s.2.map (fun j => (s.1, flattenJson j ""))) := by
  induction sources with
  | nil => simp
  | cons s rest ih =>
    intro d0 k0
    obtain ⟨name, j?⟩ := s
    cases j? with
    | none => simpa [collectStep] using ih d0 k0
    | some j => simp [collectStep, ih, List.filterMap_cons]

theorem mem_addKeysFrom (flat : List (String × String)) :
    ∀ ks k, k ∈ addKeysFrom ks flat ↔ k ∈ ks ∨ k ∈ flat.map Prod.fst := by
  induction flat with
  | nil => simp [addKeysFrom]
  | cons kv rest ih =>
    intro ks k
    rw [addKeysFrom, List.foldl_cons]
    by_cases h : kv.1 ∈ ks
    · rw [if_pos h]
      rw [show List.foldl _ ks rest = addKeysFrom ks rest from rfl, ih]
      constructor
      · rintro (hk | hk)
        · exact .inl hk
        · exact .inr (by simp [hk])
      · rintro (hk | hk)
        · exact .inl hk
        · rcases (by simpa using hk : k = kv.1 ∨ k ∈ rest.map Prod.fst) with he | hm
          · exact .inl (he ▸ h)
          · exact .inr hm
    · rw [if_neg h]
      rw [show List.foldl _ (ks ++ [kv.1]) rest = addKeysFrom (ks ++ [kv.1]) rest from rfl, ih]
      constructor
      · rintro (hk | hk)
        · rcases List.mem_append.mp hk with hk | hk
          · exact .inl hk
          · exact .inr (by simpa using .inl (by simpa using hk))
        · exact .inr (by simp [hk])
      · rintro (hk | hk)
        · exact .inl (List.mem_append.mpr (.inl hk))
        · rcases (by simpa using hk : k = kv.1 ∨ k ∈ rest.map Prod.fst) with he | hm
          · exact .inl (by simp [he])
          · exact .inr hm

theorem nodup_addKeysFrom (flat : List (String × String)) :
    ∀ ks, ks.Nodup → (addKeysFrom ks flat).Nodup := by
  induction flat with
  | nil => exact fun ks h => h
  | cons kv rest ih =>
    intro ks hks
    rw [addKeysFrom, List.foldl_cons]
    by_cases h : kv.1 ∈ ks
    · rw [if_pos h]
      exact ih ks hks
    · rw [if_neg h]
      refine ih (ks ++ [kv.1]) ?_
      simpa [List.nodup_append] using ⟨hks, h⟩

/-- The key accumulator of `collectDataFlat`: a key is collected iff it
already was in the accumulator or appears in some parsed source's catalog. -/
theorem mem_collect_keys (sources : List (String × Option Json)) :
    ∀ d0 k0 k, k ∈ (sources.foldl collectStep (d0, k0)).2 ↔
      k ∈ k0 ∨ ∃ l j, (l, some j) ∈ sources ∧ k ∈ (flattenJson j "").map Prod.fst := by
  induction sources with
  | nil => simp
  | cons s rest ih =>
    intro d0 k0 k
    obtain ⟨name, j?⟩ := s
    cases j? with
    | none =>
      rw [List.foldl_cons]
      show k ∈ (rest.foldl collectStep (d0, k0)).2 ↔ _
      rw [ih]
      simp
    | some j =>
      rw [List.foldl_cons]
      show k ∈ (rest.foldl collectStep
        (d0 ++ [(name, flattenJson j "")], addKeysFrom k0 (flattenJson j ""))).2 ↔ _
      rw [ih, mem_addKeysFrom]
      constructor
      · rintro ((hk | hk) | ⟨l, j', hm, hk⟩)
        · exact .inl hk
        · exact .inr ⟨name, j, by simp, hk⟩
        · exact .inr ⟨l, j', by simp [hm], hk⟩
      · rintro (hk | ⟨l, j', hm, hk⟩)
        · exact .inl (.inl hk)
        · rcases (by simpa using hm :
            l = name ∧ j' = j ∨ (l, some j') ∈ rest) with ⟨he, he2⟩ | hm2
          · exact .inl (.inr (he2 ▸ hk))
          · exact .inr ⟨l, j', hm2, hk⟩

theorem nodup_collect_keys (sources : List (String × Option Json)) :
    ∀ d0 k0, k0.Nodup → (sources.foldl collectStep (d0, k0)).2.Nodup := by
  induction sources with
  | nil => exact fun _ k0 h => h
  | cons s rest ih =>
    intro d0 k0 hk0
    obtain ⟨name, j?⟩ := s
    cases j? with
    | none => exact ih d0 k0 hk0
    | some j => exact ih _ _ (nodup_addKeysFrom _ _ hk0)

/-- C6 counterexample: in `collectDataFlat` a parse failure only shows an
error message — `data[lang]` is never assigned — so the failed language is
listed in `languages` but absent from `data`, not mapped to an empty
catalog. -/
theorem scan_failure_absent_from_data :
    "vi" ∈ (collectDataFlat
      [("en", some (Json.obj [("a", Json.str "x")])), ("vi", none)]).languages ∧
    assocGet (collectDataFlat
      [("en", some (Json.obj [("a", Json.str "x")])), ("vi", none)]).data "vi" = none := by
  constructor
  · decide
  · decide

/-- C6 (amended): every scanned language is listed in `languages`; a
language whose source parsed successfully is present in the `data` lookup
(with its flattened catalog), while a language all of whose scan entries
failed to parse is absent from `data` entirely — it is not mapped to an
empty catalog. -/
theorem scan_data_covers_parsed (sources : List (String × Option Json)) (l l' : String)
    (j' : Json) (hl : (l, (none : Option Json)) ∈ sources)
    (hlfail : ∀ e ∈ sources, e.1 = l → e.2 = none)
    (hl' : (l', some j') ∈ sources) :
    l ∈ (collectDataFlat sources).languages ∧
    assocGet (collectDataFlat sources).data l = none ∧
    l' ∈ (collectDataFlat sources).languages ∧
    ((assocGet (collectDataFlat sources).data l').isSome = true) := by
  refine ⟨?_, ?_, ?_, ?_⟩
  · exact List.mem_map.mpr ⟨(l, none), hl, rfl⟩
  · rw [assocGet_eq_none_iff]
    show l ∉ ((sources.foldl collectStep ([], [])).1).map Prod.fst
    rw [collect_data_eq]
    simp only [List.nil_append, List.map_filterMap, List.mem_filterMap]
    rintro ⟨⟨l0, j0?⟩, hmem, hval⟩
    cases j0? with
    | none => simp at hval
    | some j0 =>
      have he : l0 = l := by simpa using hval
      simpa using hlfail (l0, some j0) hmem he
  · exact List.mem_map.mpr ⟨(l', some j'), hl', rfl⟩
  · rw [assocGet_isSome_iff]
    show l' ∈ ((sources.foldl collectStep ([], [])).1).map Prod.fst
    rw [collect_data_eq]
    simp only [List.nil_append, List.map_filterMap, List.mem_filterMap]
    exact ⟨(l', some j'), hl', by simp⟩

theorem scan_data_covers_parsed_witness :
    "vi" ∈ (collectDataFlat [("en", some (Json.obj [])), ("vi", none)]).languages ∧
    assocGet (collectDataFlat [("en", some (Json.obj [])), ("vi", none)]).data "vi" = none ∧
    "en" ∈ (collectDataFlat [("en", some (Json.obj [])), ("vi", none)]).languages ∧
    ((assocGet (collectDataFlat
      [("en", some (Json.obj [])), ("vi", none)]).data "en").isSome = true) :=
  scan_data_covers_parsed [("en", some (Json.obj [])), ("vi", none)] "vi" "en" (Json.obj [])
    (by decide) (by decide) (by decide)

/-- C7: the aggregated `keys` list of a flat scan has no duplicates, is
sorted ascending with respect to the ordinal (UTF-16 code-unit) order, and
contains exactly the keys present in at least one scanned language's
catalog. -/
theorem scan_keys_sorted_union (sources : List (String × Option Json)) :
    (collectDataFlat sources).keys.Nodup ∧
    (collectDataFlat sources).keys.Sorted keyLe ∧
    (∀ k, k ∈ (collectDataFlat sources).keys ↔
      ∃ lc ∈ (collectDataFlat sources).data, (assocGet lc.2 k).isSome = true) := by
  refine ⟨?_, ?_, ?_⟩
  · exact (List.perm_insertionSort keyLe _).symm.nodup
      (nodup_collect_keys sources [] [] (by simp))
  · exact List.sorted_insertionSort keyLe _
  · intro k
    show k ∈ ((sources.foldl collectStep ([], [])).2).insertionSort keyLe ↔ _
    rw [List.mem_insertionSort, mem_collect_keys]
    simp only [List.not_mem_nil, false_or]
    constructor
    · rintro ⟨l, j, hm, hk⟩
      refine ⟨(l, flattenJson j ""), ?_, ?_⟩
      · show _ ∈ (sources.foldl collectStep ([], [])).1
        rw [collect_data_eq]
        exact List.mem_append.mpr (.inr (List.mem_filterMap.mpr ⟨(l, some j), hm, by simp⟩))
      · exact (assocGet_isSome_iff _ _).mpr hk
    · rintro ⟨⟨l, cat⟩, hm, hk⟩
      replace hm : (l, cat) ∈ (sources.foldl collectStep ([], [])).1 := hm
      rw [collect_data_eq] at hm
      simp only [List.nil_append, List.mem_filterMap] at hm
      obtain ⟨⟨l0, j0?⟩, hmem, hval⟩ := hm
      cases j0? with
      | none => simp at hval
      | some j0 =>
        obtain ⟨he1, he2⟩ : l0 = l ∧ flattenJson j0 "" = cat := by simpa using hval
        exact ⟨l, j0, he1 ▸ hmem, he2 ▸ (assocGet_isSome_iff _ _).mp hk⟩

theorem step_nil (current : Json) (v : String) : step current [] v = .ok current := by
  rw [step.eq_def]

/-- The plain-final branch of `step`. -/
theorem step_plain_final (current : Json) (part v : String)
    (hp : parseArrayPart part = none) :
    step current [part] v = setProp current part (.str v) := by
  rw [step.eq_def]
  dsimp only
  rw [hp]

/-- The plain-intermediate branch of `step` when the existing value is a
plain object: the walk descends into it. -/
theorem step_plain_mid_obj (current : Json) (part v r2 : String) (rs : List String)
    (fs : List (String × Json)) (hp : parseArrayPart part = none)
    (hg : getProp current part = some (.obj fs)) :
    step current (part :: r2 :: rs) v =
      (step (.obj fs) (r2 :: rs) v).bind (fun c2 => setProp current part c2) := by
  rw [step.eq_def]
  dsimp only
  rw [hp]
  dsimp only
  rw [hg]
  dsimp only
  cases step (.obj fs) (r2 :: rs) v <;> rfl

/-- The plain-intermediate branch of `step` when the existing value is
absent: a fresh empty object is created and descended into. -/
theorem step_plain_mid_none (current : Json) (part v r2 : String) (rs : List String)
    (hp : parseArrayPart part = none) (hg : getProp current part = none) :
    step current (part :: r2 :: rs) v =
      (step (.obj []) (r2 :: rs) v).bind (fun c2 => setProp current part c2) := by
  rw [step.eq_def]
  dsimp only
  rw [hp]
  dsimp only
  rw [hg]
  dsimp only
  cases step (Json.obj []) (r2 :: rs) v <;> rfl

/-- The plain-intermediate branch of `step` when the existing value is a
string: the conflicting value is silently replaced by a fresh empty object
(`typeof current[part] !== 'object'`). -/
theorem step_plain_mid_str (current : Json) (part v r2 : String) (rs : List String)
    (s : String) (hp : parseArrayPart part = none)
    (hg : getProp current part = some (.str s)) :
    step current (part :: r2 :: rs) v =
      (step (.obj []) (r2 :: rs) v).bind (fun c2 => setProp current part c2) := by
  rw [step.eq_def]
  dsimp only
  rw [hp]
  dsimp only
  rw [hg]
  dsimp only
  cases step (Json.obj []) (r2 :: rs) v <;> rfl

/-- The plain-intermediate branch of `step` when the existing value is an
array: `Array.isArray(current[part])` forces a fresh empty object too. -/
theorem step_plain_mid_arr (current : Json) (part v r2 : String) (rs : List String)
    (es : List Json) (hp : parseArrayPart part = none)
    (hg : getProp current part = some (.arr es)) :
    step current (part :: r2 :: rs) v =
      (step (.obj []) (r2 :: rs) v).bind (fun c2 => setProp current part c2) := by
  rw [step.eq_def]
  dsimp only
  rw [hp]
  dsimp only
  rw [hg]
  dsimp only
  cases step (Json.obj []) (r2 :: rs) v <;> rfl

/-- The plain-intermediate branch of `step` when the existing value is a
non-string primitive. -/
theorem step_plain_mid_prim (current : Json) (part v r2 : String) (rs : List String)
    (r : String) (hp : parseArrayPart part = none)
    (hg : getProp current part = some (.prim r)) :
    step current (part :: r2 :: rs) v =
      (step (.obj []) (r2 :: rs) v).bind (fun c2 => setProp current part c2) := by
  rw [step.eq_def]
  dsimp only
  rw [hp]
  dsimp only
  rw [hg]
  dsimp only
  cases step (Json.obj []) (r2 :: rs) v <;> rfl

/-- A `step` over plain parts, starting from an object, always succeeds and
returns an object. -/
theorem step_plain_ok (parts : List String)
    (hplain : ∀ part ∈ parts, parseArrayPart part = none) :
    ∀ (g : List (String × Json)) (v : String),
      ∃ g', step (.obj g) parts v = .ok (.obj g') := by
  induction parts with
  | nil => exact fun g v => ⟨g, step_nil _ _⟩
  | cons part rest ih =>
    intro g v
    have hp : parseArrayPart part = none := hplain part (by simp)
    have hrest : ∀ q ∈ rest, parseArrayPart q = none := fun q hq => hplain q (by simp [hq])
    cases rest with
    | nil =>
      exact ⟨assocSet g part (.str v), by rw [step_plain_final _ _ _ hp]; rfl⟩
    | cons r2 rs =>
      rcases hgp : getProp (Json.obj g) part with _ | w
      · obtain ⟨g1, h1⟩ := ih hrest [] v
        exact ⟨assocSet g part (.obj g1),
          by rw [step_plain_mid_none _ _ _ _ _ hp hgp, h1]; rfl⟩
      · cases w with
        | obj fs =>
          obtain ⟨g1, h1⟩ := ih hrest fs v
          exact ⟨assocSet g part (.obj g1),
            by rw [step_plain_mid_obj _ _ _ _ _ _ hp hgp, h1]; rfl⟩
        | str s =>
          obtain ⟨g1, h1⟩ := ih hrest [] v
          exact ⟨assocSet g part (.obj g1),
            by rw [step_plain_mid_str _ _ _ _ _ _ hp hgp, h1]; rfl⟩
        | arr es =>
          obtain ⟨g1, h1⟩ := ih hrest [] v
          exact ⟨assocSet g part (.obj g1),
            by rw [step_plain_mid_arr _ _ _ _ _ _ hp hgp, h1]; rfl⟩
        | prim r =>
          obtain ⟨g1, h1⟩ := ih hrest [] v
          exact ⟨assocSet g part (.obj g1),
            by rw [step_plain_mid_prim _ _ _ _ _ _ hp hgp, h1]; rfl⟩

/-- Unflattening a map whose keys split into plain parts always succeeds. -/
theorem unflatten_plain_ok (flat : List (String × String))
    (hplain : ∀ kv ∈ flat, allPlainKey kv.1 = true) :
    ∃ g, unflattenJson flat = .ok (.obj g) := by
  suffices h : ∀ g0, ∃ g, flat.foldlM
      (fun acc kv => step acc (splitDot kv.1) kv.2) (Json.obj g0) = .ok (.obj g) from h []
  induction flat with
  | nil => exact fun g0 => ⟨g0, rfl⟩
  | cons kv rest ih =>
    intro g0
    have hk : ∀ part ∈ splitDot kv.1, parseArrayPart part = none := by
      have := hplain kv (by simp)
      intro part hpart
      have := (List.all_eq_true.mp this) part hpart
      simpa [Option.isNone_iff_eq_none] using this
    have hrest : ∀ kv' ∈ rest, allPlainKey kv'.1 = true :=
      fun kv' h => hplain kv' (by simp [h])
    obtain ⟨g1, h1⟩ := step_plain_ok (splitDot kv.1) hk g0 kv.2
    obtain ⟨g2, h2⟩ := ih hrest g1
    exact ⟨g2, by rw [List.foldlM_cons, h1]; exact h2⟩

/-- C8 counterexample: `unflattenJson` can fail.  On the flat map
`{"a": "x", "a[1]": "y"}` the final array branch finds the truthy string
`"x"` at `a`, skips the fresh-array creation, and the extension loop calls
`push` on a string — a TypeError, in both strict and sloppy mode.  The
conflicting string is not replaced by a fresh container. -/
theorem unflatten_array_conflict_throws :
    unflattenJson [("a", "x"), ("a[1]", "y")] =
      .error "TypeError: push is not a function" := by
  decide

/-- C8 (amended): for flat maps whose keys consist only of plain (non
array-style) dot-segments, `unflattenJson` never fails, and a conflicting
intermediate value that is a string is silently overwritten with a fresh
empty object, so the last-processed key for a path prefix wins; only the
plain-segment branch has this repair — array-style segments can throw. -/
theorem unflatten_plain_never_fails :
    (∀ flat : List (String × String), (∀ kv ∈ flat, allPlainKey kv.1 = true) →
      ∃ g, unflattenJson flat = .ok (.obj g)) ∧
    (∀ (current : Json) (part v r2 : String) (rs : List String) (s : String),
      parseArrayPart part = none → getProp current part = some (.str s) →
      step current (part :: r2 :: rs) v =
        (step (.obj []) (r2 :: rs) v).bind (fun c2 => setProp current part c2)) :=
  ⟨unflatten_plain_ok,
   fun current part v r2 rs s hp hg => step_plain_mid_str current part v r2 rs s hp hg⟩

theorem splitChars_ne_nil (sep : Char) (l : List Char) : splitChars sep l ≠ [] := by
  cases l with
  | nil => simp [splitChars]
  | cons c cs =>
    rw [splitChars]
    by_cases h : c = sep
    · simp [h]
    · rw [if_neg h]
      rcases hs : splitChars sep cs with _ | ⟨p, ps⟩ <;> simp

theorem joinChars_splitChars (sep : Char) (l : List Char) :
    joinChars sep (splitChars sep l) = l := by
  induction l with
  | nil => rfl
  | cons c cs ih =>
    rw [splitChars]
    by_cases h : c = sep
    · rw [if_pos h]
      rcases hs : splitChars sep cs with _ | ⟨p, ps⟩
      · exact absurd hs (splitChars_ne_nil sep cs)
      · rw [hs] at ih
        show joinChars sep ([] :: p :: ps) = c :: cs
        rw [joinChars, List.nil_append, ih, h]
    · rw [if_neg h]
      rcases hs : splitChars sep cs with _ | ⟨p, ps⟩
      · exact absurd hs (splitChars_ne_nil sep cs)
      · rw [hs] at ih
        cases ps with
        | nil =>
          show joinChars sep [c :: p] = c :: cs
          rw [joinChars] at ih ⊢
          rw [ih]
        | cons q qs =>
          show joinChars sep ((c :: p) :: q :: qs) = c :: cs
          rw [joinChars, List.cons_append, ← ih, joinChars]

theorem splitDot_ne_nil (s : String) : splitDot s ≠ [] := by
  rw [splitDot]
  intro h
  exact splitChars_ne_nil '.' s.data (List.map_eq_nil_iff.mp h)

theorem strMk_data (s : String) : String.mk s.data = s := rfl

theorem strData_append (s t : String) : (s ++ t).data = s.data ++ t.data := rfl

theorem dotJoin_splitDot (s : String) : dotJoin (splitDot s) = s := by
  rw [splitDot, dotJoin, List.map_map]
  have h1 : ∀ ls : List (List Char), ls.map (String.data ∘ String.mk) = ls := by
    intro ls
    induction ls with
    | nil => rfl
    | cons a t ih =>
      rw [List.map_cons, ih]
      rfl
  rw [h1, joinChars_splitChars]

theorem dotJoin_single (a : String) : dotJoin [a] = a := by
  rw [dotJoin]
  show String.mk (joinChars '.' [a.data]) = a
  rw [joinChars, strMk_data]

theorem strGlue (x : String) (l : List Char) :
    x ++ "." ++ String.mk l = String.mk (x.data ++ '.' :: l) := by
  cases x with
  | mk la =>
    show String.mk (la ++ ['.'] ++ l) = String.mk (la ++ '.' :: l)
    rw [List.append_assoc]
    rfl

theorem dotJoin_cons_cons (a b : String) (l : List String) :
    dotJoin (a :: b :: l) = a ++ "." ++ dotJoin (b :: l) := by
  have h1 : dotJoin (b :: l) = String.mk (joinChars '.' (b.data :: l.map String.data)) := rfl
  have h2 : dotJoin (a :: b :: l) =
      String.mk (joinChars '.' (a.data :: b.data :: l.map String.data)) := rfl
  rw [h1, h2, joinChars, strGlue]

theorem strAppend_assoc (a b c : String) : a ++ b ++ c = a ++ (b ++ c) := by
  cases a with
  | mk la =>
  cases b with
  | mk lb =>
  cases c with
  | mk lc =>
    show String.mk (la ++ lb ++ lc) = String.mk (la ++ (lb ++ lc))
    rw [List.append_assoc]

theorem str_dot_ne_empty (p n : String) : p ++ "." ++ n ≠ "" := by
  intro h
  have hd := congrArg String.data h
  rw [strData_append, strData_append] at hd
  rw [show ("." : String).data = ['.'] from rfl, show ("" : String).data = [] from rfl] at hd
  have hlen := congrArg List.length hd
  simp at hlen

theorem dotJoin_glue (p n : String) (π : List String) :
    dotJoin ((p ++ "." ++ n) :: π) = dotJoin (p :: n :: π) := by
  cases π with
  | nil =>
    rw [dotJoin_single, dotJoin_cons_cons, dotJoin_single]
  | cons q qs =>
    rw [dotJoin_cons_cons, dotJoin_cons_cons, dotJoin_cons_cons]
    simp only [strAppend_assoc]

theorem chainKey_eq_dotJoin (π : List String) :
    ∀ p, p ≠ "" → chainKey p π = dotJoin (p :: π) := by
  induction π with
  | nil =>
    intro p _
    rw [chainKey, dotJoin_single]
  | cons n π ih =>
    intro p hp
    rw [chainKey]
    have hmk : mkKey p n = p ++ "." ++ n := if_neg hp
    rw [hmk, ih _ (str_dot_ne_empty p n), dotJoin_glue]

theorem chainKey_splitDot (k : String) (hgood : goodPlainKey k = true) :
    chainKey "" (splitDot k) = k := by
  rcases hs : splitDot k with _ | ⟨p1, ps⟩
  · exact absurd hs (splitDot_ne_nil k)
  · have hp1 : p1 ≠ "" := by
      have hb := (List.all_eq_true.mp hgood) p1 (by rw [hs]; simp)
      simp at hb
      exact hb.1
    rw [chainKey]
    have hmk : mkKey "" p1 = p1 := if_pos rfl
    rw [hmk]
    have h1 : chainKey p1 ps = dotJoin (p1 :: ps) := by
      cases ps with
      | nil => rw [chainKey, dotJoin_single]
      | cons q qs => exact chainKey_eq_dotJoin (q :: qs) p1 hp1
    rw [h1, ← hs, dotJoin_splitDot]

theorem mem_leafPathsFields_assocSet {g : List (String × Json)} {n : String} {w : Json} :
    ∀ π ∈ leafPathsFields (assocSet g n w),
      π ∈ leafPathsFields g ∨ ∃ π', π = n :: π' ∧ π' ∈ leafPaths w := by
  induction g with
  | nil =>
    intro π hπ
    right
    rw [assocSet, leafPathsFields, leafPathsFields] at hπ
    simp at hπ
    obtain ⟨π', h1, h2⟩ := hπ
    exact ⟨π', h2.symm, h1⟩
  | cons kv rest ih =>
    obtain ⟨k, u⟩ := kv
    intro π hπ
    by_cases h : k = n
    · rw [assocSet, if_pos h, leafPathsFields] at hπ
      rcases List.mem_append.mp hπ with h1 | h1
      · right
        simp at h1
        obtain ⟨π', hm, he⟩ := h1
        exact ⟨π', he.symm, hm⟩
      · left
        rw [leafPathsFields]
        exact List.mem_append.mpr (.inr h1)
    · rw [assocSet, if_neg h, leafPathsFields] at hπ
      rcases List.mem_append.mp hπ with h1 | h1
      · left
        rw [leafPathsFields]
        exact List.mem_append.mpr (.inl h1)
      · rcases ih π h1 with h2 | h2
        · left
          rw [leafPathsFields]
          exact List.mem_append.mpr (.inr h2)
        · right
          exact h2

theorem mem_leafPathsFields_of_get {g : List (String × Json)} {n : String} {w : Json}
    (hg : assocGet g n = some w) :
    ∀ π' ∈ leafPaths w, (n :: π') ∈ leafPathsFields g := by
  induction g with
  | nil => simp [assocGet] at hg
  | cons kv rest ih =>
    obtain ⟨k, u⟩ := kv
    intro π' hπ'
    rw [assocGet] at hg
    by_cases h : k = n
    · rw [if_pos h] at hg
      have hu : u = w := by injection hg
      subst hu
      subst h
      rw [leafPathsFields]
      exact List.mem_append.mpr (.inl (List.mem_map.mpr ⟨π', hπ', rfl⟩))
    · rw [if_neg h] at hg
      rw [leafPathsFields]
      exact List.mem_append.mpr (.inr (ih hg π' hπ'))

theorem noArrFields_cons {n : String} {v : Json} {rest : List (String × Json)} :
    noArrFields ((n, v) :: rest) = true ↔ noArr v = true ∧ noArrFields rest = true := by
  rw [noArrFields]
  simp

theorem noArr_of_get {g : List (String × Json)} {n : String} {w : Json}
    (hg : noArrFields g = true) (h : assocGet g n = some w) : noArr w = true := by
  induction g with
  | nil => simp [assocGet] at h
  | cons kv rest ih =>
    obtain ⟨k, u⟩ := kv
    rw [assocGet] at h
    obtain ⟨h1, h2⟩ := noArrFields_cons.mp hg
    by_cases hk : k = n
    · rw [if_pos hk] at h
      have hu : u = w := by injection h
      exact hu ▸ h1
    · rw [if_neg hk] at h
      exact ih h2 h

theorem noArrFields_assocSet {g : List (String × Json)} {n : String} {w : Json}
    (hw : noArr w = true) (hg : noArrFields g = true) :
    noArrFields (assocSet g n w) = true := by
  induction g with
  | nil =>
    rw [assocSet]
    exact noArrFields_cons.mpr ⟨hw, rfl⟩
  | cons kv rest ih =>
    obtain ⟨k, u⟩ := kv
    obtain ⟨h1, h2⟩ := noArrFields_cons.mp hg
    by_cases hk : k = n
    · rw [assocSet, if_pos hk]
      exact noArrFields_cons.mpr ⟨hw, h2⟩
    · rw [assocSet, if_neg hk]
      exact noArrFields_cons.mpr ⟨h1, ih h2⟩

theorem bind_setProp_ok {e : Except String Json} {cur : Json} {part : String} {r : Json}
    (h : e.bind (fun c2 => setProp cur part c2) = .ok r) :
    ∃ c2, e = .ok c2 ∧ setProp cur part c2 = .ok r := by
  cases e with
  | error e0 => exact Except.noConfusion h
  | ok c2 => exact ⟨c2, rfl, h⟩

theorem setProp_obj_ok {g : List (String × Json)} {k : String} {v r : Json}
    (h : setProp (.obj g) k v = .ok r) : r = .obj (assocSet g k v) := by
  rw [setProp] at h
  exact (Except.ok.inj h).symm

theorem okObj_inj {g g' : List (String × Json)}
    (h : (Except.ok (Json.obj g) : Except String Json) = .ok (Json.obj g')) : g = g' := by
  have h2 := Except.ok.inj h
  exact Json.obj.inj h2

/-- Plain steps keep the built tree array-free. -/
theorem step_plain_noArr (parts : List String)
    (hplain : ∀ part ∈ parts, parseArrayPart part = none) :
    ∀ (g : List (String × Json)) (v : String) (g' : List (String × Json)),
      noArrFields g = true → step (.obj g) parts v = .ok (.obj g') →
      noArrFields g' = true := by
  induction parts with
  | nil =>
    intro g v g' hno h
    rw [step_nil] at h
    have := okObj_inj h
    exact this ▸ hno
  | cons part rest ih =>
    intro g v g' hno h
    have hp : parseArrayPart part = none := hplain part (by simp)
    have hrest : ∀ q ∈ rest, parseArrayPart q = none := fun q hq => hplain q (by simp [hq])
    cases rest with
    | nil =>
      rw [step_plain_final _ _ _ hp] at h
      have := setProp_obj_ok h
      have h2 := Json.obj.inj this
      exact h2 ▸ noArrFields_assocSet rfl hno
    | cons r2 rs =>
      have hget : getProp (Json.obj g) part = assocGet g part := rfl
      rcases hgp : assocGet g part with _ | w
      · rw [step_plain_mid_none _ _ _ _ _ hp (hget.trans hgp)] at h
        obtain ⟨c2, hstep, hset⟩ := bind_setProp_ok h
        rcases step_ok_shape _ _ _ _ hstep with he | ⟨g1, hg1⟩
        · rw [he] at hstep
          have h1no := ih hrest [] v [] rfl hstep
          have := setProp_obj_ok (he ▸ hset)
          have h2 := Json.obj.inj this
          exact h2 ▸ noArrFields_assocSet rfl hno
        · rw [hg1] at hstep hset
          have h1no := ih hrest [] v g1 rfl hstep
          have := setProp_obj_ok hset
          have h2 := Json.obj.inj this
          exact h2 ▸ noArrFields_assocSet (by rwa [noArr]) hno
      · cases w with
        | obj fs =>
          rw [step_plain_mid_obj _ _ _ _ _ _ hp (hget.trans hgp)] at h
          obtain ⟨c2, hstep, hset⟩ := bind_setProp_ok h
          have hfs : noArrFields fs = true := by
            have := noArr_of_get hno hgp
            rwa [noArr] at this
          rcases step_ok_shape _ _ _ _ hstep with he | ⟨g1, hg1⟩
          · rw [he] at hstep
            have h1no := ih hrest fs v fs hfs hstep
            have := setProp_obj_ok (he ▸ hset)
            have h2 := Json.obj.inj this
            exact h2 ▸ noArrFields_assocSet (by rwa [noArr]) hno
          · rw [hg1] at hstep hset
            have h1no := ih hrest fs v g1 hfs hstep
            have := setProp_obj_ok hset
            have h2 := Json.obj.inj this
            exact h2 ▸ noArrFields_assocSet (by rwa [noArr]) hno
        | str s =>
          rw [step_plain_mid_str _ _ _ _ _ _ hp (hget.trans hgp)] at h
          obtain ⟨c2, hstep, hset⟩ := bind_setProp_ok h
          rcases step_ok_shape _ _ _ _ hstep with he | ⟨g1, hg1⟩
          · rw [he] at hstep
            have := setProp_obj_ok (he ▸ hset)
            have h2 := Json.obj.inj this
            exact h2 ▸ noArrFields_assocSet rfl hno
          · rw [hg1] at hstep hset
            have h1no := ih hrest [] v g1 rfl hstep
            have := setProp_obj_ok hset
            have h2 := Json.obj.inj this
            exact h2 ▸ noArrFields_assocSet (by rwa [noArr]) hno
        | arr es =>
          rw [step_plain_mid_arr _ _ _ _ _ _ hp (hget.trans hgp)] at h
          obtain ⟨c2, hstep, hset⟩ := bind_setProp_ok h
          rcases step_ok_shape _ _ _ _ hstep with he | ⟨g1, hg1⟩
          · rw [he] at hstep
            have := setProp_obj_ok (he ▸ hset)
            have h2 := Json.obj.inj this
            exact h2 ▸ noArrFields_assocSet rfl hno
          · rw [hg1] at hstep hset
            have h1no := ih hrest [] v g1 rfl hstep
            have := setProp_obj_ok hset
            have h2 := Json.obj.inj this
            exact h2 ▸ noArrFields_assocSet (by rwa [noArr]) hno
        | prim r =>
          rw [step_plain_mid_prim _ _ _ _ _ _ hp (hget.trans hgp)] at h
          obtain ⟨c2, hstep, hset⟩ := bind_setProp_ok h
          rcases step_ok_shape _ _ _ _ hstep with he | ⟨g1, hg1⟩
          · rw [he] at hstep
            have := setProp_obj_ok (he ▸ hset)
            have h2 := Json.obj.inj this
            exact h2 ▸ noArrFields_assocSet rfl hno
          · rw [hg1] at hstep hset
            have h1no := ih hrest [] v g1 rfl hstep
            have := setProp_obj_ok hset
            have h2 := Json.obj.inj this
            exact h2 ▸ noArrFields_assocSet (by rwa [noArr]) hno

/-- A plain step only adds the inserted key's part list as a new leaf path:
every leaf path of the result was already present or is the inserted one. -/
theorem step_plain_paths (parts : List String)
    (hplain : ∀ part ∈ parts, parseArrayPart part = none) :
    ∀ (g : List (String × Json)) (v : String) (g' : List (String × Json)),
      step (.obj g) parts v = .ok (.obj g') →
      ∀ π ∈ leafPathsFields g', π ∈ leafPathsFields g ∨ π = parts := by
  induction parts with
  | nil =>
    intro g v g' h π hπ
    rw [step_nil] at h
    exact .inl (okObj_inj h ▸ hπ)
  | cons part rest ih =>
    intro g v g' h π hπ
    have hp : parseArrayPart part = none := hplain part (by simp)
    have hrest : ∀ q ∈ rest, parseArrayPart q = none := fun q hq => hplain q (by simp [hq])
    cases rest with
    | nil =>
      rw [step_plain_final _ _ _ hp] at h
      have h2 := Json.obj.inj (setProp_obj_ok h)
      rw [h2] at hπ
      rcases mem_leafPathsFields_assocSet π hπ with h3 | ⟨π', he, hm⟩
      · exact .inl h3
      · rw [leafPaths] at hm
        simp at hm
        exact .inr (by rw [he, hm])
    | cons r2 rs =>
      have hget : getProp (Json.obj g) part = assocGet g part := rfl
      have main : ∀ (fs0 : List (String × Json)) (c2 : Json),
          step (.obj fs0) (r2 :: rs) v = .ok c2 →
          setProp (Json.obj g) part c2 = .ok (.obj g') →
          (∀ π' ∈ leafPaths c2, (part :: π') ∈ leafPathsFields g ∨ part :: π' = part :: r2 :: rs) →
          π ∈ leafPathsFields g ∨ π = part :: r2 :: rs := by
        intro fs0 c2 hstep hset hsub
        have h2 := Json.obj.inj (setProp_obj_ok hset)
        rw [h2] at hπ
        rcases mem_leafPathsFields_assocSet π hπ with h3 | ⟨π', he, hm⟩
        · exact .inl h3
        · rw [he]
          exact hsub π' hm
      rcases hgp : assocGet g part with _ | w
      · rw [step_plain_mid_none _ _ _ _ _ hp (hget.trans hgp)] at h
        obtain ⟨c2, hstep, hset⟩ := bind_setProp_ok h
        rcases step_ok_shape _ _ _ _ hstep with he | ⟨g1, hg1⟩
        · subst he
          refine main [] _ hstep hset ?_
          intro π' hm
          rw [leafPaths] at hm
          rcases ih hrest [] v [] hstep π' hm with h4 | h4
          · rw [leafPathsFields] at h4
            simp at h4
          · exact .inr (by rw [h4])
        · subst hg1
          refine main [] _ hstep hset ?_
          intro π' hm
          rw [leafPaths] at hm
          rcases ih hrest [] v g1 hstep π' hm with h4 | h4
          · rw [leafPathsFields] at h4
            simp at h4
          · exact .inr (by rw [h4])
      · cases w with
        | obj fs =>
          rw [step_plain_mid_obj _ _ _ _ _ _ hp (hget.trans hgp)] at h
          obtain ⟨c2, hstep, hset⟩ := bind_setProp_ok h
          rcases step_ok_shape _ _ _ _ hstep with he | ⟨g1, hg1⟩
          · subst he
            refine main fs _ hstep hset ?_
            intro π' hm
            rw [leafPaths] at hm
            rcases ih hrest fs v fs hstep π' hm with h4 | h4
            · exact .inl (mem_leafPathsFields_of_get hgp π' (by rwa [leafPaths]))
            · exact .inr (by rw [h4])
          · subst hg1
            refine main fs _ hstep hset ?_
            intro π' hm
            rw [leafPaths] at hm
            rcases ih hrest fs v g1 hstep π' hm with h4 | h4
            · exact .inl (mem_leafPathsFields_of_get hgp π' (by rwa [leafPaths]))
            · exact .inr (by rw [h4])
        | str s =>
          rw [step_plain_mid_str _ _ _ _ _ _ hp (hget.trans hgp)] at h
          obtain ⟨c2, hstep, hset⟩ := bind_setProp_ok h
          rcases step_ok_shape _ _ _ _ hstep with he | ⟨g1, hg1⟩
          · subst he
            refine main [] _ hstep hset ?_
            intro π' hm
            rw [leafPaths] at hm
            rcases ih hrest [] v [] hstep π' hm with h4 | h4
            · rw [leafPathsFields] at h4
              simp at h4
            · exact .inr (by rw [h4])
          · subst hg1
            refine main [] _ hstep hset ?_
            intro π' hm
            rw [leafPaths] at hm
            rcases ih hrest [] v g1 hstep π' hm with h4 | h4
            · rw [leafPathsFields] at h4
              simp at h4
            · exact .inr (by rw [h4])
        | arr es =>
          rw [step_plain_mid_arr _ _ _ _ _ _ hp (hget.trans hgp)] at h
          obtain ⟨c2, hstep, hset⟩ := bind_setProp_ok h
          rcases step_ok_shape _ _ _ _ hstep with he | ⟨g1, hg1⟩
          · subst he
            refine main [] _ hstep hset ?_
            intro π' hm
            rw [leafPaths] at hm
            rcases ih hrest [] v [] hstep π' hm with h4 | h4
            · rw [leafPathsFields] at h4
              simp at h4
            · exact .inr (by rw [h4])
          · subst hg1
            refine main [] _ hstep hset ?_
            intro π' hm
            rw [leafPaths] at hm
            rcases ih hrest [] v g1 hstep π' hm with h4 | h4
            · rw [leafPathsFields] at h4
              simp at h4
            · exact .inr (by rw [h4])
        | prim r =>
          rw [step_plain_mid_prim _ _ _ _ _ _ hp (hget.trans hgp)] at h
          obtain ⟨c2, hstep, hset⟩ := bind_setProp_ok h
          rcases step_ok_shape _ _ _ _ hstep with he | ⟨g1, hg1⟩
          · subst he
            refine main [] _ hstep hset ?_
            intro π' hm
            rw [leafPaths] at hm
            rcases ih hrest [] v [] hstep π' hm with h4 | h4
            · rw [leafPathsFields] at h4
              simp at h4
            · exact .inr (by rw [h4])
          · subst hg1
            refine main [] _ hstep hset ?_
            intro π' hm
            rw [leafPaths] at hm
            rcases ih hrest [] v g1 hstep π' hm with h4 | h4
            · rw [leafPathsFields] at h4
              simp at h4
            · exact .inr (by rw [h4])

theorem mem_keys_assocSet {α : Type} (m : List (String × α)) (k : String) (v : α) :
    ∀ x ∈ (assocSet m k v).map Prod.fst, x ∈ m.map Prod.fst ∨ x = k := by
  induction m with
  | nil =>
    intro x hx
    rw [assocSet] at hx
    simp at hx
    exact .inr hx
  | cons kv rest ih =>
    obtain ⟨k0, w⟩ := kv
    intro x hx
    by_cases h : k0 = k
    · rw [assocSet, if_pos h] at hx
      simp at hx
      rcases hx with hx | hx
      · exact .inr hx
      · exact .inl (by simp [hx])
    · rw [assocSet, if_neg h] at hx
      simp at hx
      rcases hx with hx | hx
      · exact .inl (by simp [hx])
      · rcases ih x (by simpa using hx) with h2 | h2
        · exact .inl (by simp; exact .inr (by simpa using h2))
        · exact .inr h2

theorem mem_keys_jsAssign (adds : List (String × String)) :
    ∀ res, ∀ x ∈ (jsAssign res adds).map Prod.fst,
      x ∈ res.map Prod.fst ∨ x ∈ adds.map Prod.fst := by
  induction adds with
  | nil => exact fun res x hx => .inl hx
  | cons kv rest ih =>
    intro res x hx
    rcases ih (assocSet res kv.1 kv.2) x hx with h | h
    · rcases mem_keys_assocSet res kv.1 kv.2 x h with h2 | h2
      · exact .inl h2
      · exact .inr (by simp [h2])
    · exact .inr (by simp [h])

mutual

/-- Every key produced by flattening an array-free value at `nk` is either
an accumulator key or the chained key of one of the value's leaf paths. -/
theorem flattenVal_keys : ∀ (v : Json), noArr v = true →
    ∀ (nk : String) (res : List (String × String)),
    ∀ x ∈ (flattenVal res nk v).map Prod.fst,
      x ∈ res.map Prod.fst ∨ ∃ π ∈ leafPaths v, x = chainKey nk π
  | .str s, _ => by
    intro nk res x hx
    rw [flattenVal] at hx
    rcases mem_keys_assocSet res nk s x hx with h | h
    · exact .inl h
    · exact .inr ⟨[], by rw [leafPaths]; simp, by rw [chainKey]; exact h⟩
  | .prim r, _ => by
    intro nk res x hx
    rw [flattenVal] at hx
    rcases mem_keys_assocSet res nk r x hx with h | h
    · exact .inl h
    · exact .inr ⟨[], by rw [leafPaths]; simp, by rw [chainKey]; exact h⟩
  | .arr es, hv => by
    rw [noArr] at hv
    exact absurd hv (by simp)
  | .obj fs, hv => by
    intro nk res x hx
    rw [flattenVal] at hx
    rcases mem_keys_jsAssign _ res x hx with h | h
    · exact .inl h
    · rcases flattenFields_keys fs (by rwa [noArr] at hv) nk [] x h with h2 | h2
      · simp at h2
      · obtain ⟨π, hπ, he⟩ := h2
        exact .inr ⟨π, by rw [leafPaths]; exact hπ, he⟩

/-- Every key produced by flattening an array-free field list with prefix
`p` is an accumulator key or the chained key of one of its leaf paths. -/
theorem flattenFields_keys : ∀ (fs : List (String × Json)), noArrFields fs = true →
    ∀ (p : String) (res : List (String × String)),
    ∀ x ∈ (flattenFields fs p res).map Prod.fst,
      x ∈ res.map Prod.fst ∨ ∃ π ∈ leafPathsFields fs, x = chainKey p π
  | [], _ => by
    intro p res x hx
    rw [flattenFields] at hx
    exact .inl hx
  | (n, v) :: rest, hfs => by
    intro p res x hx
    rw [flattenFields] at hx
    obtain ⟨hv, hrest⟩ := noArrFields_cons.mp hfs
    rcases flattenFields_keys rest hrest p _ x hx with h | h
    · rcases flattenVal_keys v hv (mkKey p n) res x h with h3 | h3
      · exact .inl h3
      · obtain ⟨π, hπ, he⟩ := h3
        refine .inr ⟨n :: π, ?_, ?_⟩
        · rw [leafPathsFields]
          exact List.mem_append.mpr (.inl (List.mem_map.mpr ⟨π, hπ, rfl⟩))
        · rw [chainKey]
          exact he
    · obtain ⟨π, hπ, he⟩ := h
      refine .inr ⟨π, ?_, he⟩
      rw [leafPathsFields]
      exact List.mem_append.mpr (.inr hπ)

end

/-- Folding plain-keyed inserts keeps the tree array-free and bounds its
leaf paths by the split keys of the processed entries. -/
theorem unflatten_plain_shape (flat : List (String × String))
    (hplain : ∀ kv ∈ flat, allPlainKey kv.1 = true) :
    ∀ (g0 g' : List (String × Json)), noArrFields g0 = true →
      flat.foldlM (fun acc kv => step acc (splitDot kv.1) kv.2) (Json.obj g0) = .ok (.obj g') →
      noArrFields g' = true ∧
      (∀ π ∈ leafPathsFields g', π ∈ leafPathsFields g0 ∨ ∃ kv ∈ flat, π = splitDot kv.1) := by
  induction flat with
  | nil =>
    intro g0 g' hno h
    simp only [List.foldlM_nil] at h
    have h2 : g0 = g' := okObj_inj h
    exact ⟨h2 ▸ hno, fun π hπ => .inl (h2 ▸ hπ)⟩
  | cons kv rest ih =>
    intro g0 g' hno h
    rw [List.foldlM_cons] at h
    have hkplain : ∀ part ∈ splitDot kv.1, parseArrayPart part = none := by
      have := hplain kv (by simp)
      intro part hpart
      have := (List.all_eq_true.mp this) part hpart
      simpa [Option.isNone_iff_eq_none] using this
    have hrestplain : ∀ kv' ∈ rest, allPlainKey kv'.1 = true :=
      fun kv' h' => hplain kv' (by simp [h'])
    rcases hstep : step (Json.obj g0) (splitDot kv.1) kv.2 with e | a
    · rw [hstep] at h
      exact Except.noConfusion h
    · rw [hstep] at h
      obtain ⟨g1, hg1⟩ : ∃ g1, a = Json.obj g1 := by
        rcases step_ok_shape _ _ _ _ hstep with he | he
        · exact ⟨g0, he⟩
        · exact he
      subst hg1
      have h1no := step_plain_noArr (splitDot kv.1) hkplain g0 kv.2 g1 hno hstep
      have h1paths := step_plain_paths (splitDot kv.1) hkplain g0 kv.2 g1 hstep
      obtain ⟨h2no, h2paths⟩ := ih hrestplain g1 g' h1no h
      refine ⟨h2no, fun π hπ => ?_⟩
      rcases h2paths π hπ with hπ1 | ⟨kv', hkv', he⟩
      · rcases h1paths π hπ1 with h3 | h3
        · exact .inl h3
        · exact .inr ⟨kv, by simp, h3⟩
      · exact .inr ⟨kv', by simp [hkv'], he⟩

/-- C3 counterexample: deleting the key `"a[0]"` from a language whose file
is `{"a": ["u", "y"]}` leaves `"a[1]"` in the flat map; rewriting the file
gap-fills index 0 with the empty string, so re-flattening the rewritten file
shows `"a[0]"` present again (now mapping to `""`). -/
theorem deleteKey_resurrects_array_slot :
    assocGet (catalogOf (Json.obj [("a", Json.arr [Json.str "u", Json.str "y"])])) "a[0]" =
      some "u" ∧
    assocGet (catalogOf (deleteKeyFile "a[0]"
      (Json.obj [("a", Json.arr [Json.str "u", Json.str "y"])]))) "a[0]" = some "" := by
  constructor
  · decide
  · decide

/-- C3 (amended): when every key of a language's flat catalog consists only
of plain, nonempty dot-segments (no array-style segments), the recomputed
catalog after `deleteKey(k)` — re-flattening the rewritten file — does not
contain `k`.  With array-style keys a deleted slot below the maximal index
reappears as an empty-string placeholder. -/
theorem deleteKey_removes_for_plain_keys (file : Json) (k : String)
    (hgood : ∀ kv ∈ catalogOf file, goodPlainKey kv.1 = true) :
    assocGet (catalogOf (deleteKeyFile k file)) k = none := by
  have hm'good : ∀ kv ∈ assocDelete (catalogOf file) k, goodPlainKey kv.1 = true :=
    fun kv h => hgood kv (List.mem_of_mem_filter h)
  have hm'plain : ∀ kv ∈ assocDelete (catalogOf file) k, allPlainKey kv.1 = true := by
    intro kv h
    have hg := hm'good kv h
    rw [goodPlainKey, List.all_eq_true] at hg
    rw [allPlainKey, List.all_eq_true]
    intro part hpart
    have := hg part hpart
    simp at this ⊢
    exact this.2
  obtain ⟨g, hok⟩ := unflatten_plain_ok _ hm'plain
  have hfile : deleteKeyFile k file = .obj g := by
    rw [deleteKeyFile, rewriteWith, hok]
  rw [hfile]
  rw [show catalogOf (Json.obj g) = flattenFields g "" [] from rfl]
  rw [assocGet_eq_none_iff]
  intro hkmem
  obtain ⟨hno, hpaths⟩ := unflatten_plain_shape _ hm'plain [] g rfl hok
  rcases flattenFields_keys g hno "" [] k hkmem with h | ⟨π, hπ, he⟩
  · simp at h
  · rcases hpaths π hπ with h0 | ⟨kv, hkv, hesplit⟩
    · rw [leafPathsFields] at h0
      simp at h0
    · have hgoodkv := hm'good kv hkv
      have heq : k = kv.1 := by
        rw [he, hesplit, chainKey_splitDot kv.1 hgoodkv]
      have hne : kv.1 ≠ k := by
        have := List.mem_filter.mp hkv
        simpa using this.2
      exact hne heq.symm

theorem deleteKey_removes_for_plain_keys_witness :
    assocGet (catalogOf (deleteKeyFile "a"
      (Json.obj [("a", Json.str "x"), ("b", Json.str "y")]))) "a" = none :=
  deleteKey_removes_for_plain_keys (Json.obj [("a", Json.str "x"), ("b", Json.str "y")]) "a"
    (by decide)

theorem decDigitsAux_acc : ∀ (fuel n : Nat) (acc : List Char),
    decDigitsAux fuel n acc = decDigitsAux fuel n [] ++ acc := by
  intro fuel
  induction fuel with
  | zero => intro n acc; rfl
  | succ fuel ih =>
    intro n acc
    rw [decDigitsAux, decDigitsAux]
    by_cases h : n < 10
    · simp [h]
    · rw [if_neg h, if_neg h, ih (n / 10) _, ih (n / 10) [_]]
      rw [List.append_assoc]
      rfl

theorem digit_char_isDigit (m : Nat) (hm : m < 10) :
    (Char.ofNat (48 + m)).isDigit = true := by
  interval_cases m <;> decide

theorem digit_char_toNat (m : Nat) (hm : m < 10) :
    (Char.ofNat (48 + m)).toNat = 48 + m := by
  interval_cases m <;> decide

theorem decDigitsAux_all_digit : ∀ (fuel n : Nat), n < fuel →
    ∀ c ∈ decDigitsAux fuel n [], c.isDigit = true := by
  intro fuel
  induction fuel with
  | zero => intro n hn; omega
  | succ fuel ih =>
    intro n hn c hc
    rw [decDigitsAux] at hc
    by_cases h : n < 10
    · rw [if_pos h] at hc
      simp at hc
      rw [hc]
      exact digit_char_isDigit _ (by omega)
    · rw [if_neg h] at hc
      rw [decDigitsAux_acc] at hc
      rcases List.mem_append.mp hc with h2 | h2
      · have hlt : n / 10 < fuel := by
          have h3 : n / 10 < n := Nat.div_lt_self (by omega) (by omega)
          omega
        exact ih (n / 10) hlt c h2
      · simp at h2
        rw [h2]
        exact digit_char_isDigit _ (by exact Nat.mod_lt _ (by omega))

theorem decDigits_all_digit (n : Nat) : ∀ c ∈ decDigits n, c.isDigit = true :=
  decDigitsAux_all_digit (n + 1) n (by omega)

theorem digitsVal_append_singleton (xs : List Char) (c : Char) :
    digitsVal (xs ++ [c]) = digitsVal xs * 10 + (c.toNat - 48) := by
  rw [digitsVal, digitsVal, List.foldl_append]
  rfl

theorem digitsVal_decDigitsAux : ∀ (fuel n : Nat), n < fuel →
    digitsVal (decDigitsAux fuel n []) = n := by
  intro fuel
  induction fuel with
  | zero => intro n hn; omega
  | succ fuel ih =>
    intro n hn
    rw [decDigitsAux]
    by_cases h : n < 10
    · rw [if_pos h]
      show digitsVal ([] ++ [Char.ofNat (48 + n % 10)]) = n
      rw [digitsVal_append_singleton, digit_char_toNat _ (by exact Nat.mod_lt _ (by omega))]
      have : n % 10 = n := Nat.mod_eq_of_lt h
      simp [digitsVal]
      omega
    · rw [if_neg h, decDigitsAux_acc]
      rw [digitsVal_append_singleton]
      have hlt : n / 10 < fuel := by
        have h3 : n / 10 < n := Nat.div_lt_self (by omega) (by omega)
        omega
      rw [ih (n / 10) hlt, digit_char_toNat _ (by exact Nat.mod_lt _ (by omega))]
      omega

theorem digitsVal_decDigits (n : Nat) : digitsVal (decDigits n) = n :=
  digitsVal_decDigitsAux (n + 1) n (by omega)

theorem decDigits_ne_nil (n : Nat) : decDigits n ≠ [] := by
  rw [decDigits, decDigitsAux]
  by_cases h : n < 10
  · simp [h]
  · rw [if_neg h, decDigitsAux_acc]
    simp

theorem isDigit_ne (c : Char) (h : c.isDigit = true) :
    c ≠ '.' ∧ c ≠ '[' ∧ c ≠ ']' := by
  refine ⟨fun he => ?_, fun he => ?_, fun he => ?_⟩ <;>
    (rw [he] at h; exact absurd h (by decide))

theorem strData_ne_nil_iff (s : String) : s ≠ "" ↔ s.data ≠ [] := by
  cases s with
  | mk l =>
    cases l with
    | nil => exact ⟨fun h => absurd rfl h, fun h => absurd rfl h⟩
    | cons c cs =>
      constructor
      · intro _ he
        exact List.noConfusion he
      · intro _ he
        exact absurd (congrArg String.data he) (by simp)

theorem takeWhile_all_stop {p : Char → Bool} : ∀ (xs : List Char) (y : Char) (ys : List Char),
    (∀ x ∈ xs, p x = true) → p y = false →
    (xs ++ y :: ys).takeWhile p = xs ∧ (xs ++ y :: ys).dropWhile p = y :: ys := by
  intro xs
  induction xs with
  | nil =>
    intro y ys _ hy
    constructor
    · simp [List.takeWhile_cons, hy]
    · simp [List.dropWhile_cons, hy]
  | cons x xs ih =>
    intro y ys hall hy
    have hx : p x = true := hall x (by simp)
    obtain ⟨h1, h2⟩ := ih y ys (fun z hz => hall z (by simp [hz])) hy
    constructor
    · simp [List.takeWhile_cons, hx, h1]
    · simp [List.dropWhile_cons, hx, h2]

theorem idxKey_data (n : String) (i : Nat) :
    (idxKey n i).data = n.data ++ '[' :: decDigits i ++ [']'] := by
  rw [idxKey, strData_append, strData_append, strData_append]
  rw [show ("[" : String).data = ['['] from rfl, show ("]" : String).data = [']'] from rfl]
  rw [show (decStr i).data = decDigits i from rfl]
  simp

theorem parseArrayPart_eq (part : String) (rest : List Char)
    (h : part.data.reverse = ']' :: rest) :
    parseArrayPart part =
      (if (rest.takeWhile Char.isDigit).isEmpty then none
       else
         match rest.dropWhile Char.isDigit with
         | '[' :: pre =>
           if pre.isEmpty then none
           else some (String.mk pre.reverse, digitsVal (rest.takeWhile Char.isDigit).reverse)
         | _ => none) := by
  rw [parseArrayPart, h]
  rfl

/-- The regex of `unflattenJson` recovers the name and index from a key
built by `flattenJson`'s array branch, for any nonempty name. -/
theorem parse_idxKey (n : String) (hn : n ≠ "") (i : Nat) :
    parseArrayPart (idxKey n i) = some (n, i) := by
  have hrev : (idxKey n i).data.reverse =
      ']' :: ((decDigits i).reverse ++ '[' :: n.data.reverse) := by
    rw [idxKey_data]
    simp
  rw [parseArrayPart_eq _ _ hrev]
  have hall : ∀ c ∈ (decDigits i).reverse, c.isDigit = true := by
    intro c hc
    exact decDigits_all_digit i c (List.mem_reverse.mp hc)
  obtain ⟨htake, hdrop⟩ :=
    takeWhile_all_stop ((decDigits i).reverse) '[' n.data.reverse hall (by decide)
  have hne : ((decDigits i).reverse).isEmpty = false := by
    simp [List.isEmpty_iff]
    exact decDigits_ne_nil i
  rw [htake, hdrop, hne]
  simp only [Bool.false_eq_true, if_false]
  show (if (n.data.reverse).isEmpty = true then none
    else some (String.mk n.data.reverse.reverse,
      digitsVal ((decDigits i).reverse).reverse)) = some (n, i)
  have hpre : (n.data.reverse).isEmpty = false := by
    simp [List.isEmpty_iff]
    exact (strData_ne_nil_iff n).mp hn
  rw [hpre]
  simp only [Bool.false_eq_true, if_false]
  rw [List.reverse_reverse, List.reverse_reverse, strMk_data, digitsVal_decDigits]

theorem splitChars_of_not_mem {sep : Char} : ∀ l : List Char, sep ∉ l →
    splitChars sep l = [l] := by
  intro l
  induction l with
  | nil => intro _; rfl
  | cons c cs ih =>
    intro h
    rw [splitChars, if_neg (by intro he; exact h (by simp [he]))]
    rw [ih (fun hm => h (by simp [hm]))]

theorem splitChars_append_sep {sep : Char} : ∀ xs ys : List Char,
    splitChars sep (xs ++ sep :: ys) = splitChars sep xs ++ splitChars sep ys := by
  intro xs ys
  induction xs with
  | nil => simp [splitChars]
  | cons c cs ih =>
    by_cases h : c = sep
    · subst h
      rw [List.cons_append]
      conv_lhs => rw [splitChars]
      rw [if_pos rfl, ih]
      conv_rhs => rw [splitChars]
      rw [if_pos rfl]
      rfl
    · rw [List.cons_append]
      conv_lhs => rw [splitChars]
      rw [if_neg h, ih]
      conv_rhs => rw [splitChars]
      rw [if_neg h]
      rcases hs : splitChars sep cs with _ | ⟨p, ps⟩
      · exact absurd hs (splitChars_ne_nil sep cs)
      · rfl

theorem splitDot_of_dotfree (n : String) (h : '.' ∉ n.data) : splitDot n = [n] := by
  rw [splitDot, splitChars_of_not_mem n.data h]
  rw [List.map_singleton, strMk_data]

theorem splitDot_append_dot (a b : String) :
    splitDot (a ++ "." ++ b) = splitDot a ++ splitDot b := by
  have hdata : (a ++ "." ++ b).data = a.data ++ '.' :: b.data := by
    rw [strData_append, strData_append, show ("." : String).data = ['.'] from rfl]
    simp
  rw [splitDot, hdata, splitChars_append_sep, List.map_append]
  rfl

theorem splitDot_chainKey : ∀ (π : List String) (p : String), p ≠ "" →
    (∀ part ∈ π, '.' ∉ part.data) →
    splitDot (chainKey p π) = splitDot p ++ π := by
  intro π
  induction π with
  | nil => intro p _ _; simp [chainKey]
  | cons n π ih =>
    intro p hp hdf
    rw [chainKey, show mkKey p n = p ++ "." ++ n from if_neg hp]
    rw [ih (p ++ "." ++ n) (str_dot_ne_empty p n) (fun q hq => hdf q (by simp [hq]))]
    rw [splitDot_append_dot, splitDot_of_dotfree n (hdf n (by simp))]
    simp

theorem splitDot_chainKey_root (n : String) (π : List String) (hn : n ≠ "")
    (hdf : ∀ part ∈ n :: π, '.' ∉ part.data) :
    splitDot (chainKey "" (n :: π)) = n :: π := by
  rw [chainKey, show mkKey "" n = n from if_pos rfl]
  cases π with
  | nil =>
    rw [chainKey, splitDot_of_dotfree n (hdf n (by simp))]
  | cons q qs =>
    rw [splitDot_chainKey (q :: qs) n hn (fun r hr => hdf r (by simp [hr]))]
    rw [splitDot_of_dotfree n (hdf n (by simp))]
    rfl

theorem chainKey_append (τ : List String) : ∀ (p : String) (π : List String),
    chainKey p (τ ++ π) = chainKey (chainKey p τ) π := by
  induction τ with
  | nil => intro p π; rfl
  | cons n τ ih =>
    intro p π
    rw [List.cons_append, chainKey, ih, chainKey]

theorem unflatten_plain_never_fails_witness :
    (∃ g, unflattenJson [("a.b", "1"), ("a", "x"), ("a.c", "2")] = .ok (.obj g)) ∧
    step (.obj [("a", Json.str "x")]) ["a", "b"] "y" =
      (step (.obj []) ["b"] "y").bind
        (fun c2 => setProp (.obj [("a", Json.str "x")]) "a" c2) :=
  ⟨unflatten_plain_never_fails.1 [("a.b", "1"), ("a", "x"), ("a.c", "2")] (by decide),
   unflatten_plain_never_fails.2 (.obj [("a", Json.str "x")]) "a" "y" "b" [] "x"
     (by decide) (by decide)⟩

/-! ## Round-trip: association-list and fold helpers -/

theorem assocSet_append_fresh {α : Type} {m : List (String × α)} {k : String}
    (h : assocGet m k = none) (v : α) : assocSet m k v = m ++ [(k, v)] := by
  induction m with
  | nil => rfl
  | cons kv rest ih =>
    obtain ⟨k0, w⟩ := kv
    by_cases h0 : k0 = k
    · rw [assocGet, if_pos h0] at h
      exact absurd h (by simp)
    · rw [assocGet, if_neg h0] at h
      rw [assocSet, if_neg h0, ih h]
      rfl

theorem assocGet_append_of_none {α : Type} {g : List (String × α)} {k : String}
    (h : assocGet g k = none) (m : List (String × α)) :
    assocGet (g ++ m) k = assocGet m k := by
  induction g with
  | nil => rfl
  | cons kv rest ih =>
    obtain ⟨k0, w⟩ := kv
    by_cases h0 : k0 = k
    · rw [assocGet, if_pos h0] at h
      exact absurd h (by simp)
    · rw [assocGet, if_neg h0] at h
      rw [List.cons_append, assocGet, if_neg h0]
      exact ih h

theorem assocSet_set_same {α : Type} (g : List (String × α)) (k : String) (x y : α) :
    assocSet (assocSet g k x) k y = assocSet g k y := by
  induction g with
  | nil => simp [assocSet]
  | cons kv rest ih =>
    obtain ⟨k0, w⟩ := kv
    by_cases h0 : k0 = k
    · rw [assocSet, if_pos h0, assocSet, if_pos rfl, assocSet, if_pos h0]
    · rw [assocSet, if_neg h0, assocSet, if_neg h0, ih, assocSet, if_neg h0]

theorem assocSet_append_self {α : Type} {g : List (String × α)} {n : String}
    (h : assocGet g n = none) (x y : α) :
    assocSet (g ++ [(n, x)]) n y = g ++ [(n, y)] := by
  rw [← assocSet_append_fresh h x, assocSet_set_same, assocSet_append_fresh h y]

theorem assocGet_append_self {α : Type} {g : List (String × α)} {n : String}
    (h : assocGet g n = none) (x : α) :
    assocGet (g ++ [(n, x)]) n = some x := by
  rw [assocGet_append_of_none h, assocGet, if_pos rfl]

theorem jsAssign_append : ∀ (adds res : List (String × String)),
    (∀ k ∈ adds.map Prod.fst, assocGet res k = none) →
    (adds.map Prod.fst).Nodup →
    jsAssign res adds = res ++ adds
  | [], res, _, _ => by simp [jsAssign]
  | (k, v) :: rest, res, hfresh, hnd => by
    have hset : assocSet res k v = res ++ [(k, v)] :=
      assocSet_append_fresh (hfresh k (by simp)) v
    have hres : jsAssign res ((k, v) :: rest) = jsAssign (res ++ [(k, v)]) rest := by
      rw [jsAssign, List.foldl_cons, hset]
      rfl
    rw [hres, jsAssign_append rest (res ++ [(k, v)])]
    · simp
    · intro m hm
      have hk : m ≠ k := by
        intro he
        subst he
        rw [List.map_cons, List.nodup_cons] at hnd
        exact hnd.1 hm
      rw [assocGet_append_of_none (hfresh m (by simp [hm]))]
      rw [assocGet, if_neg (fun he => hk he.symm)]
      rfl
    · rw [List.map_cons, List.nodup_cons] at hnd
      exact hnd.2

theorem listSet_append_len {α : Type} : ∀ (xs : List α) (a b : α),
    (xs ++ [a]).set xs.length b = xs ++ [b]
  | [], _, _ => rfl
  | x :: xs, a, b => by
    show x :: (xs ++ [a]).set xs.length b = x :: (xs ++ [b])
    rw [listSet_append_len xs a b]

theorem listGet_append_len {α : Type} : ∀ (xs : List α) (a : α),
    (xs ++ [a]).get? xs.length = some a
  | [], _ => rfl
  | x :: xs, a => by
    simp only [List.cons_append, List.length_cons, List.get?]
    exact listGet_append_len xs a

theorem listGet_some_lt {α : Type} : ∀ {xs : List α} {i : Nat} {a : α},
    xs.get? i = some a → i < xs.length
  | [], i, a, h => by simp [List.get?] at h
  | x :: xs, 0, a, _ => by simp
  | x :: xs, i + 1, a, h => by
    rw [List.get?] at h
    have := listGet_some_lt h
    simpa using this

theorem listGet_set_self {α : Type} : ∀ (xs : List α) (i : Nat) (x : α),
    i < xs.length → (xs.set i x).get? i = some x
  | [], i, x, h => by simp at h
  | a :: xs, 0, x, _ => rfl
  | a :: xs, i + 1, x, h => by
    simp only [List.set, List.get?]
    exact listGet_set_self xs i x (by simpa using h)

theorem listSet_set_self {α : Type} : ∀ (xs : List α) (i : Nat) (x y : α),
    (xs.set i x).set i y = xs.set i y
  | [], _, _, _ => rfl
  | a :: xs, 0, x, y => rfl
  | a :: xs, i + 1, x, y => by
    simp only [List.set]
    rw [listSet_set_self xs i x y]

theorem foldT_cons (t : Json) (kv : String × String) (L : List (String × String)) :
    foldT t (kv :: L) =
      (step t (splitDot kv.1) kv.2).bind (fun t2 => foldT t2 L) := by
  rw [foldT, List.foldlM_cons]
  cases step t (splitDot kv.1) kv.2 <;> rfl

theorem foldT_single (t : Json) (kv : String × String) :
    foldT t [kv] = step t (splitDot kv.1) kv.2 := by
  rw [foldT_cons]
  cases step t (splitDot kv.1) kv.2 <;> rfl

theorem foldT_append (t : Json) : ∀ (L1 L2 : List (String × String)),
    foldT t (L1 ++ L2) = (foldT t L1).bind (fun t2 => foldT t2 L2) := by
  intro L1
  induction L1 generalizing t with
  | nil => intro L2; rfl
  | cons kv L1 ih =>
    intro L2
    rw [List.cons_append, foldT_cons, foldT_cons]
    cases step t (splitDot kv.1) kv.2 with
    | error e => rfl
    | ok t2 => exact ih t2 L2

/-! ## Round-trip: segment and key-shape lemmas -/

theorem mkKey_empty_left (k : String) : mkKey "" k = k := by
  rw [mkKey, if_pos rfl]

theorem goodName_spec {n : String} (h : goodName n = true) :
    n ≠ "" ∧ '.' ∉ n.data ∧ parseArrayPart n = none := by
  rw [goodName] at h
  simp only [Bool.and_eq_true, Bool.not_eq_true', decide_eq_false_iff_not,
    Option.isNone_iff_eq_none] at h
  refine ⟨h.1.1, ?_, h.2⟩
  intro hmem
  have h2 := h.1.2
  rw [List.contains_eq_any_beq] at h2
  simp only [List.any_eq_false] at h2
  have h3 := h2 '.' hmem
  simp at h3

theorem idxKey_ne_empty (n : String) (i : Nat) : idxKey n i ≠ "" := by
  intro h
  have hd : (idxKey n i).data = [] := by rw [h]
  rw [idxKey_data] at hd
  simp at hd

theorem idxKey_dotfree {n : String} (h : '.' ∉ n.data) (i : Nat) :
    '.' ∉ (idxKey n i).data := by
  rw [idxKey_data]
  intro hmem
  rcases List.mem_append.mp hmem with h1 | h1
  · rcases List.mem_append.mp h1 with h2 | h2
    · exact h h2
    · rcases List.mem_cons.mp h2 with h3 | h3
      · exact absurd h3 (by decide)
      · exact absurd rfl (isDigit_ne '.' (decDigits_all_digit i '.' h3)).1
  · simp at h1

theorem idxKey_mkKey (p n : String) (i : Nat) :
    idxKey (mkKey p n) i = mkKey p (idxKey n i) := by
  by_cases hp : p = ""
  · subst hp
    rw [mkKey_empty_left, mkKey_empty_left]
  · rw [mkKey, if_neg hp, mkKey, if_neg hp, idxKey, idxKey]
    simp only [strAppend_assoc]

theorem segStr_good {s : Seg} (h : goodSeg s = true) :
    segStr s ≠ "" ∧ '.' ∉ (segStr s).data := by
  cases s with
  | fld n =>
    rw [goodSeg] at h
    obtain ⟨h1, h2, _⟩ := goodName_spec h
    exact ⟨h1, h2⟩
  | idx n i =>
    rw [goodSeg] at h
    obtain ⟨_, h2, _⟩ := goodName_spec h
    exact ⟨idxKey_ne_empty n i, idxKey_dotfree h2 i⟩

theorem idxKey_inj {n m : String} {i j : Nat} (hn : n ≠ "") (hm : m ≠ "")
    (h : idxKey n i = idxKey m j) : n = m ∧ i = j := by
  have h1 := parse_idxKey n hn i
  rw [h, parse_idxKey m hm j] at h1
  have h2 : m = n ∧ j = i := by
    constructor
    · exact congrArg Prod.fst (Option.some.inj h1)
    · exact congrArg Prod.snd (Option.some.inj h1)
  exact ⟨h2.1.symm, h2.2.symm⟩

theorem segStr_inj {s1 s2 : Seg} (h1 : goodSeg s1 = true) (h2 : goodSeg s2 = true)
    (he : segStr s1 = segStr s2) : s1 = s2 := by
  cases s1 with
  | fld n1 =>
    cases s2 with
    | fld n2 => rw [segStr, segStr] at he; rw [he]
    | idx n2 j =>
      rw [segStr, segStr] at he
      obtain ⟨_, _, hp1⟩ := goodName_spec h1
      obtain ⟨hne2, _, _⟩ := goodName_spec h2
      rw [he, parse_idxKey n2 hne2 j] at hp1
      exact absurd hp1 (by simp)
  | idx n1 i =>
    cases s2 with
    | fld n2 =>
      rw [segStr, segStr] at he
      obtain ⟨hne1, _, _⟩ := goodName_spec h1
      obtain ⟨_, _, hp2⟩ := goodName_spec h2
      rw [← he, parse_idxKey n1 hne1 i] at hp2
      exact absurd hp2 (by simp)
    | idx n2 j =>
      rw [segStr, segStr] at he
      obtain ⟨hne1, _, _⟩ := goodName_spec h1
      obtain ⟨hne2, _, _⟩ := goodName_spec h2
      obtain ⟨hn, hi⟩ := idxKey_inj hne1 hne2 he
      rw [hn, hi]

theorem segs_parts_good {ρ : List Seg} (hρ : ∀ s ∈ ρ, goodSeg s = true) :
    ∀ part ∈ ρ.map segStr, part ≠ "" ∧ '.' ∉ part.data := by
  intro part hp
  obtain ⟨s, hs, rfl⟩ := List.mem_map.mp hp
  exact segStr_good (hρ s hs)

theorem splitDot_chainKey_full : ∀ (π : List String), π ≠ [] →
    (∀ part ∈ π, part ≠ "" ∧ '.' ∉ part.data) →
    splitDot (chainKey "" π) = π
  | [], h, _ => absurd rfl h
  | n :: π, _, hg => by
    exact splitDot_chainKey_root n π (hg n (by simp)).1
      (fun part hp => (hg part hp).2)

theorem chainKey_inj_cons {q a b : String} {π1 π2 : List String}
    (hg1 : ∀ part ∈ a :: π1, part ≠ "" ∧ '.' ∉ part.data)
    (hg2 : ∀ part ∈ b :: π2, part ≠ "" ∧ '.' ∉ part.data)
    (he : chainKey q (a :: π1) = chainKey q (b :: π2)) :
    a = b ∧ π1 = π2 := by
  by_cases hq : q = ""
  · subst hq
    have h1 := splitDot_chainKey_full (a :: π1) (by simp) hg1
    have h2 := splitDot_chainKey_full (b :: π2) (by simp) hg2
    rw [he, h2] at h1
    exact ⟨(List.cons.inj h1.symm).1, (List.cons.inj h1.symm).2⟩
  · have h1 := splitDot_chainKey (a :: π1) q hq (fun part hp => (hg1 part hp).2)
    have h2 := splitDot_chainKey (b :: π2) q hq (fun part hp => (hg2 part hp).2)
    rw [he, h2] at h1
    have h3 := List.append_cancel_left h1.symm
    exact ⟨(List.cons.inj h3).1, (List.cons.inj h3).2⟩

/-! ## Round-trip: destructuring the good-domain predicates -/

theorem goodVal_obj_spec {hs : List (String × Json)} (h : goodVal (.obj hs) = true) :
    hs ≠ [] ∧ (hs.map Prod.fst).Nodup ∧ goodFieldList hs = true := by
  rw [goodVal] at h
  simp only [Bool.and_eq_true, Bool.not_eq_true', decide_eq_true_eq] at h
  refine ⟨?_, h.1.2, h.2⟩
  intro he
  subst he
  simp at h

theorem goodElem_obj_spec {hs : List (String × Json)} (h : goodElem (.obj hs) = true) :
    hs ≠ [] ∧ (hs.map Prod.fst).Nodup ∧ goodFieldList hs = true := by
  rw [goodElem] at h
  simp only [Bool.and_eq_true, Bool.not_eq_true', decide_eq_true_eq] at h
  refine ⟨?_, h.1.2, h.2⟩
  intro he
  subst he
  simp at h

theorem goodVal_arr_spec {es : List Json} (h : goodVal (.arr es) = true) :
    es ≠ [] ∧ goodElemList es = true := by
  rw [goodVal] at h
  simp only [Bool.and_eq_true, Bool.not_eq_true'] at h
  refine ⟨?_, h.2⟩
  intro he
  subst he
  simp at h

theorem goodFieldList_cons_spec {n : String} {v : Json} {rest : List (String × Json)}
    (h : goodFieldList ((n, v) :: rest) = true) :
    goodName n = true ∧ goodVal v = true ∧ goodFieldList rest = true := by
  rw [goodFieldList] at h
  simp only [Bool.and_eq_true] at h
  exact ⟨h.1.1, h.1.2, h.2⟩

theorem goodElemList_cons_spec {e : Json} {rest : List Json}
    (h : goodElemList (e :: rest) = true) :
    goodElem e = true ∧ goodElemList rest = true := by
  rw [goodElemList] at h
  simp only [Bool.and_eq_true] at h
  exact h

/-! ## Round-trip: the shape of the keys emitted by the flatten spec -/

mutual

/-- Every key of `specVal p n v` descends from field `n`: it chains from
`p` through a head segment named `n` and then good parts. -/
theorem headVal : ∀ (v : Json), goodVal v = true →
    ∀ (p n : String), goodName n = true →
    ∀ k ∈ (specVal p n v).map Prod.fst,
      ∃ (s0 : Seg) (π : List String), k = chainKey p (segStr s0 :: π) ∧
        segName s0 = n ∧ goodSeg s0 = true ∧
        ∀ part ∈ π, part ≠ "" ∧ '.' ∉ part.data
  | .str s, _ => by
    intro p n hgn k hk
    rw [specVal] at hk
    simp at hk
    exact ⟨.fld n, [], by rw [hk]; rfl, rfl, hgn, by simp⟩
  | .prim r, hgv => by exact absurd hgv (by rw [goodVal]; simp)
  | .obj hs, hgv => by
    intro p n hgn k hk
    rw [specVal] at hk
    obtain ⟨hne, hnd, hgf⟩ := goodVal_obj_spec hgv
    obtain ⟨s1, π1, hk1, _, hgs1, hp1⟩ := headFields hs hgf (mkKey p n) k hk
    refine ⟨.fld n, segStr s1 :: π1, ?_, rfl, hgn, ?_⟩
    · exact hk1
    · intro part hp
      rcases List.mem_cons.mp hp with h | h
      · rw [h]; exact segStr_good hgs1
      · exact hp1 part h
  | .arr es, hgv => by
    intro p n hgn k hk
    rw [specVal] at hk
    obtain ⟨hne, hge⟩ := goodVal_arr_spec hgv
    obtain ⟨j, π, _, hk1, hp1⟩ := headElems es hge p n hgn 0 k hk
    exact ⟨.idx n j, π, hk1, rfl, hgn, hp1⟩

/-- Every key of `specFields q fs` chains from `q` through a head segment
named after one of the fields. -/
theorem headFields : ∀ (fs : List (String × Json)), goodFieldList fs = true →
    ∀ (q : String), ∀ k ∈ (specFields q fs).map Prod.fst,
      ∃ (s0 : Seg) (π : List String), k = chainKey q (segStr s0 :: π) ∧
        segName s0 ∈ fs.map Prod.fst ∧ goodSeg s0 = true ∧
        ∀ part ∈ π, part ≠ "" ∧ '.' ∉ part.data
  | [], _ => by
    intro q k hk
    rw [specFields] at hk
    simp at hk
  | (n, v) :: rest, hgf => by
    intro q k hk
    obtain ⟨hgn, hgv, hgr⟩ := goodFieldList_cons_spec hgf
    rw [specFields, List.map_append] at hk
    rcases List.mem_append.mp hk with h | h
    · obtain ⟨s0, π, hk1, hname, hgs, hp⟩ := headVal v hgv q n hgn k h
      exact ⟨s0, π, hk1, by rw [hname]; simp, hgs, hp⟩
    · obtain ⟨s0, π, hk1, hname, hgs, hp⟩ := headFields rest hgr q k h
      exact ⟨s0, π, hk1, by simp [List.mem_cons]; exact .inr (by simpa using hname), hgs, hp⟩

/-- Every key of `specElems (mkKey p n) i es` chains from `p` through an
array-element head `n[j]` with `j ≥ i`. -/
theorem headElems : ∀ (es : List Json), goodElemList es = true →
    ∀ (p n : String), goodName n = true → ∀ (i : Nat),
    ∀ k ∈ (specElems (mkKey p n) i es).map Prod.fst,
      ∃ (j : Nat) (π : List String), i ≤ j ∧ k = chainKey p (idxKey n j :: π) ∧
        ∀ part ∈ π, part ≠ "" ∧ '.' ∉ part.data
  | [], _ => by
    intro p n _ i k hk
    rw [specElems] at hk
    simp at hk
  | e :: rest, hge => by
    intro p n hgn i k hk
    obtain ⟨hg1, hg2⟩ := goodElemList_cons_spec hge
    rw [specElems, List.map_append] at hk
    rcases List.mem_append.mp hk with h | h
    · obtain ⟨π, hk1, hp⟩ := headElem e hg1 p n hgn i k h
      exact ⟨i, π, Nat.le_refl i, hk1, hp⟩
    · obtain ⟨j, π, hij, hk1, hp⟩ := headElems rest hg2 p n hgn (i + 1) k h
      exact ⟨j, π, Nat.le_of_succ_le hij, hk1, hp⟩

/-- Every key of `specElem (mkKey p n) i e` chains from `p` through the
array-element head `n[i]`. -/
theorem headElem : ∀ (e : Json), goodElem e = true →
    ∀ (p n : String), goodName n = true → ∀ (i : Nat),
    ∀ k ∈ (specElem (mkKey p n) i e).map Prod.fst,
      ∃ (π : List String), k = chainKey p (idxKey n i :: π) ∧
        ∀ part ∈ π, part ≠ "" ∧ '.' ∉ part.data
  | .str s, _ => by
    intro p n _ i k hk
    rw [specElem] at hk
    simp at hk
    refine ⟨[], ?_, by simp⟩
    rw [hk, idxKey_mkKey]
    rfl
  | .prim r, hge => by exact absurd hge (by rw [goodElem]; simp)
  | .arr es, hge => by exact absurd hge (by rw [goodElem]; simp)
  | .obj hs, hge => by
    intro p n hgn i k hk
    obtain ⟨hne, hnd, hgf⟩ := goodElem_obj_spec hge
    rw [specElem, idxKey_mkKey] at hk
    obtain ⟨s1, π1, hk1, _, hgs1, hp1⟩ := headFields hs hgf (mkKey p (idxKey n i)) k hk
    refine ⟨segStr s1 :: π1, hk1, ?_⟩
    intro part hp
    rcases List.mem_cons.mp hp with h | h
    · rw [h]; exact segStr_good hgs1
    · exact hp1 part h

end

/-! ## Round-trip: the spec keys are distinct and nonempty -/

mutual

/-- The keys emitted for one good field value are pairwise distinct. -/
theorem ndVal : ∀ (v : Json), goodVal v = true →
    ∀ (p n : String), goodName n = true →
    ((specVal p n v).map Prod.fst).Nodup
  | .str s, _ => by
    intro p n _
    rw [specVal]
    simp
  | .prim r, hgv => by exact absurd hgv (by rw [goodVal]; simp)
  | .obj hs, hgv => by
    intro p n _
    rw [specVal]
    obtain ⟨_, hnd, hgf⟩ := goodVal_obj_spec hgv
    exact ndFields hs hgf hnd (mkKey p n)
  | .arr es, hgv => by
    intro p n hgn
    rw [specVal]
    obtain ⟨_, hge⟩ := goodVal_arr_spec hgv
    exact ndElems es hge p n hgn 0

/-- The keys emitted for a good field list are pairwise distinct. -/
theorem ndFields : ∀ (fs : List (String × Json)), goodFieldList fs = true →
    (fs.map Prod.fst).Nodup → ∀ (q : String),
    ((specFields q fs).map Prod.fst).Nodup
  | [], _ => by
    intro _ q
    rw [specFields]
    simp
  | (n, v) :: rest, hgf => by
    intro hnd q
    obtain ⟨hgn, hgv, hgr⟩ := goodFieldList_cons_spec hgf
    rw [List.map_cons, List.nodup_cons] at hnd
    rw [specFields, List.map_append, List.nodup_append]
    refine ⟨ndVal v hgv q n hgn, ndFields rest hgr hnd.2 q, ?_⟩
    intro k hk1 hk2
    obtain ⟨s0, π1, he1, hname0, hgs0, hp1⟩ := headVal v hgv q n hgn k hk1
    obtain ⟨s1, π2, he2, hmem1, hgs1, hp2⟩ := headFields rest hgr q k hk2
    have he := he1.symm.trans he2
    have hgood0 : ∀ part ∈ segStr s0 :: π1, part ≠ "" ∧ '.' ∉ part.data := by
      intro part hp
      rcases List.mem_cons.mp hp with h | h
      · rw [h]; exact segStr_good hgs0
      · exact hp1 part h
    have hgood1 : ∀ part ∈ segStr s1 :: π2, part ≠ "" ∧ '.' ∉ part.data := by
      intro part hp
      rcases List.mem_cons.mp hp with h | h
      · rw [h]; exact segStr_good hgs1
      · exact hp2 part h
    obtain ⟨hhead, _⟩ := chainKey_inj_cons hgood0 hgood1 he
    have hseg := segStr_inj hgs0 hgs1 hhead
    rw [← hseg, hname0] at hmem1
    exact hnd.1 hmem1

/-- The keys emitted for a good element list (from index `i` on) are
pairwise distinct. -/
theorem ndElems : ∀ (es : List Json), goodElemList es = true →
    ∀ (p n : String), goodName n = true → ∀ (i : Nat),
    ((specElems (mkKey p n) i es).map Prod.fst).Nodup
  | [], _ => by
    intro p n _ i
    rw [specElems]
    simp
  | e :: rest, hge => by
    intro p n hgn i
    obtain ⟨hg1, hg2⟩ := goodElemList_cons_spec hge
    rw [specElems, List.map_append, List.nodup_append]
    refine ⟨ndElem e hg1 p n hgn i, ndElems rest hg2 p n hgn (i + 1), ?_⟩
    intro k hk1 hk2
    obtain ⟨π1, he1, hp1⟩ := headElem e hg1 p n hgn i k hk1
    obtain ⟨j, π2, hij, he2, hp2⟩ := headElems rest hg2 p n hgn (i + 1) k hk2
    have he := he1.symm.trans he2
    obtain ⟨hne, hdf, _⟩ := goodName_spec hgn
    have hgood1 : ∀ part ∈ idxKey n i :: π1, part ≠ "" ∧ '.' ∉ part.data := by
      intro part hp
      rcases List.mem_cons.mp hp with h | h
      · rw [h]; exact ⟨idxKey_ne_empty n i, idxKey_dotfree hdf i⟩
      · exact hp1 part h
    have hgood2 : ∀ part ∈ idxKey n j :: π2, part ≠ "" ∧ '.' ∉ part.data := by
      intro part hp
      rcases List.mem_cons.mp hp with h | h
      · rw [h]; exact ⟨idxKey_ne_empty n j, idxKey_dotfree hdf j⟩
      · exact hp2 part h
    obtain ⟨hhead, _⟩ := chainKey_inj_cons hgood1 hgood2 he
    obtain ⟨_, hieq⟩ := idxKey_inj hne hne hhead
    rw [← hieq] at hij
    exact absurd hij (by simp)

/-- The keys emitted for one good array element are pairwise distinct. -/
theorem ndElem : ∀ (e : Json), goodElem e = true →
    ∀ (p n : String), goodName n = true → ∀ (i : Nat),
    ((specElem (mkKey p n) i e).map Prod.fst).Nodup
  | .str s, _ => by
    intro p n _ i
    rw [specElem]
    simp
  | .prim r, hge => by exact absurd hge (by rw [goodElem]; simp)
  | .arr es, hge => by exact absurd hge (by rw [goodElem]; simp)
  | .obj hs, hge => by
    intro p n _ i
    obtain ⟨_, hnd, hgf⟩ := goodElem_obj_spec hge
    rw [specElem, idxKey_mkKey]
    exact ndFields hs hgf hnd (mkKey p (idxKey n i))

end

mutual

/-- The flatten spec of a good value emits at least one key. -/
theorem specVal_ne_nil : ∀ (v : Json), goodVal v = true →
    ∀ (p n : String), specVal p n v ≠ []
  | .str s, _ => by intro p n; rw [specVal]; simp
  | .prim r, hgv => by exact absurd hgv (by rw [goodVal]; simp)
  | .obj hs, hgv => by
    intro p n
    rw [specVal]
    obtain ⟨hne, _, hgf⟩ := goodVal_obj_spec hgv
    exact specFields_ne_nil hs hgf hne (mkKey p n)
  | .arr es, hgv => by
    intro p n
    rw [specVal]
    obtain ⟨hne, hge⟩ := goodVal_arr_spec hgv
    exact specElems_ne_nil es hge hne (mkKey p n) 0

/-- The flatten spec of a good, nonempty field list emits at least one key. -/
theorem specFields_ne_nil : ∀ (fs : List (String × Json)), goodFieldList fs = true →
    fs ≠ [] → ∀ (q : String), specFields q fs ≠ []
  | [], _ => by intro h _; exact absurd rfl h
  | (n, v) :: rest, hgf => by
    intro _ q hap
    obtain ⟨_, hgv, _⟩ := goodFieldList_cons_spec hgf
    rw [specFields] at hap
    rcases he : specVal q n v with _ | ⟨x, xs⟩
    · exact specVal_ne_nil v hgv q n he
    · rw [he] at hap
      simp at hap

/-- The flatten spec of a good, nonempty element list emits at least one key. -/
theorem specElems_ne_nil : ∀ (es : List Json), goodElemList es = true →
    es ≠ [] → ∀ (nk : String) (i : Nat), specElems nk i es ≠ []
  | [], _ => by intro h _ _; exact absurd rfl h
  | e :: rest, hge => by
    intro _ nk i hap
    obtain ⟨hg1, _⟩ := goodElemList_cons_spec hge
    rw [specElems] at hap
    rcases he : specElem nk i e with _ | ⟨x, xs⟩
    · exact specElem_ne_nil e hg1 nk i he
    · rw [he] at hap
      simp at hap

/-- The flatten spec of one good array element emits at least one key. -/
theorem specElem_ne_nil : ∀ (e : Json), goodElem e = true →
    ∀ (nk : String) (i : Nat), specElem nk i e ≠ []
  | .str s, _ => by intro nk i; rw [specElem]; simp
  | .prim r, hge => by exact absurd hge (by rw [goodElem]; simp)
  | .arr es, hge => by exact absurd hge (by rw [goodElem]; simp)
  | .obj hs, hge => by
    intro nk i
    rw [specElem]
    obtain ⟨hne, _, hgf⟩ := goodElem_obj_spec hge
    exact specFields_ne_nil hs hgf hne (idxKey nk i)

end

/-! ## Round-trip: the accumulator-passing flatten equals the spec -/

theorem specVal_mk (v : Json) (q n : String) :
    specVal q n v = specVal "" (mkKey q n) v := by
  cases v with
  | str s => rw [specVal, specVal, mkKey_empty_left]
  | prim r => rw [specVal, specVal, mkKey_empty_left]
  | obj hs => rw [specVal, specVal, mkKey_empty_left]
  | arr es => rw [specVal, specVal, mkKey_empty_left]

mutual

/-- `flattenVal` appends exactly the spec pairs when its keys are fresh for
the accumulator and mutually distinct. -/
theorem flattenVal_eq : ∀ (v : Json), goodVal v = true →
    ∀ (nk : String) (res : List (String × String)),
    (∀ k ∈ (specVal "" nk v).map Prod.fst, k ∉ res.map Prod.fst) →
    ((specVal "" nk v).map Prod.fst).Nodup →
    flattenVal res nk v = res ++ specVal "" nk v
  | .str s, _ => by
    intro nk res hfresh _
    rw [specVal, mkKey_empty_left] at hfresh ⊢
    rw [flattenVal]
    exact assocSet_append_fresh
      ((assocGet_eq_none_iff res nk).mpr (hfresh nk (by simp))) s
  | .prim r, hgv => by exact absurd hgv (by rw [goodVal]; simp)
  | .obj hs, hgv => by
    intro nk res hfresh hnd
    rw [specVal, mkKey_empty_left] at hfresh hnd ⊢
    obtain ⟨_, _, hgf⟩ := goodVal_obj_spec hgv
    rw [flattenVal, flattenFields_eq hs hgf nk [] (by simp) hnd, List.nil_append]
    exact jsAssign_append (specFields nk hs) res
      (fun k hk => (assocGet_eq_none_iff res k).mpr (hfresh k hk)) hnd
  | .arr es, hgv => by
    intro nk res hfresh hnd
    rw [specVal, mkKey_empty_left] at hfresh hnd ⊢
    obtain ⟨_, hge⟩ := goodVal_arr_spec hgv
    rw [flattenVal]
    exact flattenItems_eq es hge nk 0 res hfresh hnd

/-- `flattenFields` appends exactly the spec pairs of its field list. -/
theorem flattenFields_eq : ∀ (fs : List (String × Json)), goodFieldList fs = true →
    ∀ (q : String) (res : List (String × String)),
    (∀ k ∈ (specFields q fs).map Prod.fst, k ∉ res.map Prod.fst) →
    ((specFields q fs).map Prod.fst).Nodup →
    flattenFields fs q res = res ++ specFields q fs
  | [], _ => by
    intro q res _ _
    rw [flattenFields, specFields, List.append_nil]
  | (n, v) :: rest, hgf => by
    intro q res hfresh hnd
    obtain ⟨hgn, hgv, hgr⟩ := goodFieldList_cons_spec hgf
    rw [specFields, List.map_append, List.nodup_append] at hnd
    have hv : flattenVal res (mkKey q n) v = res ++ specVal q n v := by
      rw [specVal_mk v q n]
      exact flattenVal_eq v hgv (mkKey q n) res
        (fun k hk => hfresh k (by
          rw [specFields, List.map_append]
          exact List.mem_append.mpr (.inl (by rw [specVal_mk v q n]; exact hk))))
        (by rw [← specVal_mk v q n]; exact hnd.1)
    rw [flattenFields, hv, flattenFields_eq rest hgr q (res ++ specVal q n v)
      (fun k hk => by
        rw [List.map_append, List.mem_append]
        rintro (h | h)
        · exact hfresh k (by
            rw [specFields, List.map_append]
            exact List.mem_append.mpr (.inr hk)) h
        · exact hnd.2.2 h hk)
      hnd.2.1]
    rw [specFields, List.append_assoc]

/-- `flattenItems` appends exactly the spec pairs of the element list. -/
theorem flattenItems_eq : ∀ (es : List Json), goodElemList es = true →
    ∀ (nk : String) (i : Nat) (res : List (String × String)),
    (∀ k ∈ (specElems nk i es).map Prod.fst, k ∉ res.map Prod.fst) →
    ((specElems nk i es).map Prod.fst).Nodup →
    flattenItems res nk i es = res ++ specElems nk i es
  | [], _ => by
    intro nk i res _ _
    rw [flattenItems, specElems, List.append_nil]
  | e :: rest, hge => by
    intro nk i res hfresh hnd
    obtain ⟨hg1, hg2⟩ := goodElemList_cons_spec hge
    rw [specElems, List.map_append, List.nodup_append] at hnd
    have he : flattenItemStep res nk i e = res ++ specElem nk i e :=
      flattenItemStep_eq e hg1 nk i res
        (fun k hk => hfresh k (by
          rw [specElems, List.map_append]
          exact List.mem_append.mpr (.inl hk)))
        hnd.1
    rw [flattenItems, he, flattenItems_eq rest hg2 nk (i + 1) (res ++ specElem nk i e)
      (fun k hk => by
        rw [List.map_append, List.mem_append]
        rintro (h | h)
        · exact hfresh k (by
            rw [specElems, List.map_append]
            exact List.mem_append.mpr (.inr hk)) h
        · exact hnd.2.2 h hk)
      hnd.2.1]
    rw [specElems, List.append_assoc]

/-- One `forEach` iteration appends exactly the spec pairs of the element. -/
theorem flattenItemStep_eq : ∀ (e : Json), goodElem e = true →
    ∀ (nk : String) (i : Nat) (res : List (String × String)),
    (∀ k ∈ (specElem nk i e).map Prod.fst, k ∉ res.map Prod.fst) →
    ((specElem nk i e).map Prod.fst).Nodup →
    flattenItemStep res nk i e = res ++ specElem nk i e
  | .str s, _ => by
    intro nk i res hfresh _
    rw [flattenItemStep, specElem]
    exact assocSet_append_fresh
      ((assocGet_eq_none_iff res (idxKey nk i)).mpr
        (hfresh (idxKey nk i) (by rw [specElem]; simp))) s
  | .prim r, hge => by exact absurd hge (by rw [goodElem]; simp)
  | .arr es, hge => by exact absurd hge (by rw [goodElem]; simp)
  | .obj hs, hge => by
    intro nk i res hfresh hnd
    rw [specElem] at hfresh hnd ⊢
    obtain ⟨_, _, hgf⟩ := goodElem_obj_spec hge
    rw [flattenItemStep, flattenFields_eq hs hgf (idxKey nk i) [] (by simp) hnd]
    rw [List.nil_append]
    exact jsAssign_append (specFields (idxKey nk i) hs) res
      (fun k hk => (assocGet_eq_none_iff res k).mpr (hfresh k hk)) hnd

end

/-! ## Round-trip: walking and rewriting already-built structure -/

theorem replacePath_nil (t u : Json) : replacePath t [] u = u := by
  cases t <;> rfl

theorem replacePath_fld_some {g : List (String × Json)} {n : String} {w : Json}
    (h : assocGet g n = some w) (ρ : List Seg) (u : Json) :
    replacePath (.obj g) (.fld n :: ρ) u = .obj (assocSet g n (replacePath w ρ u)) := by
  rw [replacePath.eq_def]
  dsimp only
  rw [h]

theorem replacePath_idx_some {g : List (String × Json)} {n : String} {es : List Json}
    {i : Nat} {e : Json} (hg : assocGet g n = some (.arr es)) (hi : es.get? i = some e)
    (ρ : List Seg) (u : Json) :
    replacePath (.obj g) (.idx n i :: ρ) u =
      .obj (assocSet g n (.arr (es.set i (replacePath e ρ u)))) := by
  rw [replacePath.eq_def]
  dsimp only
  rw [hg]
  dsimp only
  rw [hi]

theorem replacePath_obj_ex : ∀ (ρ : List Seg) (w : List (String × Json))
    (g2 : List (String × Json)),
    ∃ w2, replacePath (.obj w) ρ (.obj g2) = .obj w2
  | [], w, g2 => ⟨g2, replacePath_nil _ _⟩
  | .fld n :: ρ, w, g2 => by
    rcases hga : assocGet w n with _ | w'
    · exact ⟨w, by rw [replacePath.eq_def]; dsimp only; rw [hga]⟩
    · exact ⟨assocSet w n (replacePath w' ρ (.obj g2)), replacePath_fld_some hga ρ _⟩
  | .idx n i :: ρ, w, g2 => by
    rcases hga : assocGet w n with _ | x
    · exact ⟨w, by rw [replacePath.eq_def]; dsimp only; rw [hga]⟩
    · cases x with
      | arr es =>
        rcases hi : es.get? i with _ | e
        · exact ⟨w, by rw [replacePath.eq_def]; dsimp only; rw [hga]; dsimp only; rw [hi]⟩
        · exact ⟨assocSet w n (.arr (es.set i (replacePath e ρ (.obj g2)))),
            replacePath_idx_some hga hi ρ _⟩
      | str a => exact ⟨w, by rw [replacePath.eq_def]; dsimp only; rw [hga]⟩
      | obj a => exact ⟨w, by rw [replacePath.eq_def]; dsimp only; rw [hga]⟩
      | prim a => exact ⟨w, by rw [replacePath.eq_def]; dsimp only; rw [hga]⟩

theorem descends_replace {t : Json} {ρ : List Seg} {u : Json} (h : Descends t ρ u) :
    ∀ (g2 : List (String × Json)),
    Descends (replacePath t ρ (.obj g2)) ρ (.obj g2) := by
  induction h with
  | nil t =>
    intro g2
    rw [replacePath_nil]
    exact .nil _
  | fld g n ρ w u hget hd ih =>
    intro g2
    rw [replacePath_fld_some hget]
    obtain ⟨w2, hw2⟩ := replacePath_obj_ex ρ w g2
    rw [hw2]
    exact .fld _ n ρ w2 (.obj g2) (assocGet_set_self g n (.obj w2))
      (by rw [← hw2]; exact ih g2)
  | idx g n i es e u ρ hget hgete hd ih =>
    intro g2
    rw [replacePath_idx_some hget hgete]
    exact .idx _ n i (es.set i (replacePath e ρ (.obj g2)))
      (replacePath e ρ (.obj g2)) (.obj g2) ρ
      (assocGet_set_self g n _)
      (listGet_set_self es i _ (listGet_some_lt hgete))
      (ih g2)

theorem replace_replace {t : Json} {ρ : List Seg} {u : Json} (h : Descends t ρ u) :
    ∀ (g1 : List (String × Json)) (u2 : Json),
    replacePath (replacePath t ρ (.obj g1)) ρ u2 = replacePath t ρ u2 := by
  induction h with
  | nil t =>
    intro g1 u2
    simp only [replacePath_nil]
  | fld g n ρ w u hget hd ih =>
    intro g1 u2
    rw [replacePath_fld_some hget ρ (.obj g1), replacePath_fld_some hget ρ u2]
    rw [replacePath_fld_some (assocGet_set_self g n (replacePath (.obj w) ρ (.obj g1))) ρ u2]
    rw [assocSet_set_same, ih g1 u2]
  | idx g n i es e u ρ hget hgete hd ih =>
    intro g1 u2
    rw [replacePath_idx_some hget hgete ρ (.obj g1), replacePath_idx_some hget hgete ρ u2]
    rw [replacePath_idx_some
      (assocGet_set_self g n (.arr (es.set i (replacePath e ρ (.obj g1)))))
      (listGet_set_self es i (replacePath e ρ (.obj g1)) (listGet_some_lt hgete)) ρ u2]
    rw [assocSet_set_same, listSet_set_self, ih g1 u2]

theorem descends_snoc_fld : ∀ {t : Json} {ρ : List Seg} {u : Json}, Descends t ρ u →
    ∀ {g : List (String × Json)} {n : String} {w : List (String × Json)},
    u = .obj g → assocGet g n = some (.obj w) → Descends t (ρ ++ [Seg.fld n]) (.obj w) := by
  intro t ρ u h
  induction h with
  | nil t =>
    intro g n w hu hget
    subst hu
    exact .fld g n [] w (.obj w) hget (.nil _)
  | fld g0 n0 ρ w0 u hget0 hd ih =>
    intro g n w hu hget
    exact .fld g0 n0 (ρ ++ [Seg.fld n]) w0 (.obj w) hget0 (ih hu hget)
  | idx g0 n0 i es e u ρ hget0 hgete0 hd ih =>
    intro g n w hu hget
    exact .idx g0 n0 i es e (.obj w) (ρ ++ [Seg.fld n]) hget0 hgete0 (ih hu hget)

theorem descends_snoc_idx : ∀ {t : Json} {ρ : List Seg} {u : Json}, Descends t ρ u →
    ∀ {g : List (String × Json)} {n : String} {es : List Json} {i : Nat} {e : Json},
    u = .obj g → assocGet g n = some (.arr es) → es.get? i = some e →
    Descends t (ρ ++ [Seg.idx n i]) e := by
  intro t ρ u h
  induction h with
  | nil t =>
    intro g n es i e hu hget hgete
    subst hu
    exact .idx g n i es e e [] hget hgete (.nil _)
  | fld g0 n0 ρ w0 u hget0 hd ih =>
    intro g n es i e hu hget hgete
    exact .fld g0 n0 (ρ ++ [Seg.idx n i]) w0 e hget0 (ih hu hget hgete)
  | idx g0 n0 i0 es0 e0 u ρ hget0 hgete0 hd ih =>
    intro g n es i e hu hget hgete
    exact .idx g0 n0 i0 es0 e0 e (ρ ++ [Seg.idx n i]) hget0 hgete0 (ih hu hget hgete)

theorem replace_snoc_fld : ∀ {t : Json} {ρ : List Seg} {u : Json}, Descends t ρ u →
    ∀ {g : List (String × Json)} {n : String} {w : Json},
    u = .obj g → assocGet g n = some w → ∀ (x : Json),
    replacePath t (ρ ++ [Seg.fld n]) x = replacePath t ρ (.obj (assocSet g n x)) := by
  intro t ρ u h
  induction h with
  | nil t =>
    intro g n w hu hget x
    subst hu
    rw [List.nil_append, replacePath_fld_some hget [] x, replacePath_nil, replacePath_nil]
  | fld g0 n0 ρ w0 u hget0 hd ih =>
    intro g n w hu hget x
    rw [List.cons_append, replacePath_fld_some hget0 (ρ ++ [Seg.fld n]) x]
    rw [replacePath_fld_some hget0 ρ (.obj (assocSet g n x))]
    rw [ih hu hget x]
  | idx g0 n0 i0 es0 e0 u ρ hget0 hgete0 hd ih =>
    intro g n w hu hget x
    rw [List.cons_append, replacePath_idx_some hget0 hgete0 (ρ ++ [Seg.fld n]) x]
    rw [replacePath_idx_some hget0 hgete0 ρ (.obj (assocSet g n x))]
    rw [ih hu hget x]

theorem replace_snoc_idx : ∀ {t : Json} {ρ : List Seg} {u : Json}, Descends t ρ u →
    ∀ {g : List (String × Json)} {n : String} {es : List Json} {i : Nat} {e : Json},
    u = .obj g → assocGet g n = some (.arr es) → es.get? i = some e → ∀ (x : Json),
    replacePath t (ρ ++ [Seg.idx n i]) x =
      replacePath t ρ (.obj (assocSet g n (.arr (es.set i x)))) := by
  intro t ρ u h
  induction h with
  | nil t =>
    intro g n es i e hu hget hgete x
    subst hu
    rw [List.nil_append, replacePath_idx_some hget hgete [] x, replacePath_nil,
      replacePath_nil]
  | fld g0 n0 ρ w0 u hget0 hd ih =>
    intro g n es i e hu hget hgete x
    rw [List.cons_append, replacePath_fld_some hget0 (ρ ++ [Seg.idx n i]) x]
    rw [replacePath_fld_some hget0 ρ _]
    rw [ih hu hget hgete x]
  | idx g0 n0 i0 es0 e0 u ρ hget0 hgete0 hd ih =>
    intro g n es i e hu hget hgete x
    rw [List.cons_append, replacePath_idx_some hget0 hgete0 (ρ ++ [Seg.idx n i]) x]
    rw [replacePath_idx_some hget0 hgete0 ρ _]
    rw [ih hu hget hgete x]

/-! ## Round-trip: the array branches of one unflatten step -/

theorem getProp_obj (g : List (String × Json)) (k : String) :
    getProp (.obj g) k = assocGet g k := rfl

/-- The array-final branch on an existing array of length exactly `i`: one
empty-string slot is pushed and immediately overwritten with the value. -/
theorem step_arr_final {g : List (String × Json)} {n : String} {es0 : List Json}
    {i : Nat} (hn : n ≠ "") (hg : assocGet g n = some (.arr es0))
    (hlen : es0.length = i) (v : String) :
    step (.obj g) [idxKey n i] v =
      .ok (.obj (assocSet g n (.arr (es0 ++ [.str v])))) := by
  subst hlen
  rw [step.eq_def]
  dsimp only
  rw [parse_idxKey n hn es0.length]
  dsimp only
  rw [getProp_obj, hg]
  rw [if_pos (show jsTruthy (some (Json.arr es0)) = true from rfl)]
  dsimp only
  rw [getProp_obj, hg]
  dsimp only [Option.getD_some]
  rw [ensureLen.eq_def]
  dsimp only
  rw [if_pos (Nat.le_refl es0.length)]
  have hrep : es0.length + 1 - es0.length = 1 := by omega
  rw [hrep]
  dsimp only [List.replicate]
  rw [setIdx.eq_def]
  dsimp only
  rw [if_pos (show es0.length < (es0 ++ [Json.str ""]).length by
    rw [List.length_append, List.length_singleton]; omega)]
  rw [listSet_append_len es0 (Json.str "") (Json.str v)]
  rfl

/-- The array-intermediate branch on an existing array element: the walk
descends into the element and writes the result back in place. -/
theorem step_arr_mid_exists {g : List (String × Json)} {n : String} {es : List Json}
    {i : Nat} {e : Json} (hn : n ≠ "") (hg : assocGet g n = some (.arr es))
    (hi : es.get? i = some e) (r : String) (rs : List String) (v : String) :
    step (.obj g) (idxKey n i :: r :: rs) v =
      (match step e (r :: rs) v with
       | .ok e2 => .ok (.obj (assocSet g n (.arr (es.set i e2))))
       | .error er => .error er) := by
  have hlt : i < es.length := listGet_some_lt hi
  rw [step.eq_def]
  dsimp only
  rw [parse_idxKey n hn i]
  dsimp only
  rw [getProp_obj, hg]
  rw [if_pos (show jsTruthy (some (Json.arr es)) = true from rfl)]
  dsimp only
  rw [getProp_obj, hg]
  dsimp only [Option.getD_some]
  rw [ensureLen.eq_def]
  dsimp only
  rw [if_neg (Nat.not_le.mpr hlt)]
  rw [show getIdx (.arr es) i = es.get? i from rfl, hi]
  dsimp only
  cases step e (r :: rs) v with
  | error er => rfl
  | ok e2 =>
    dsimp only
    rw [setIdx.eq_def]
    dsimp only
    rw [if_pos hlt]
    rfl

/-- The array-intermediate branch on an existing array of length exactly
`i`: an empty object is pushed, descended into, and written back. -/
theorem step_idx_fresh_elem {g : List (String × Json)} {n : String} {es0 : List Json}
    {i : Nat} (hn : n ≠ "") (hg : assocGet g n = some (.arr es0))
    (hlen : es0.length = i) (r : String) (rs : List String) (v : String) :
    step (.obj g) (idxKey n i :: r :: rs) v =
      (match step (.obj []) (r :: rs) v with
       | .ok e2 => .ok (.obj (assocSet g n (.arr (es0 ++ [e2]))))
       | .error er => .error er) := by
  subst hlen
  rw [step.eq_def]
  dsimp only
  rw [parse_idxKey n hn es0.length]
  dsimp only
  rw [getProp_obj, hg]
  rw [if_pos (show jsTruthy (some (Json.arr es0)) = true from rfl)]
  dsimp only
  rw [getProp_obj, hg]
  dsimp only [Option.getD_some]
  rw [ensureLen.eq_def]
  dsimp only
  rw [if_pos (Nat.le_refl es0.length)]
  have hrep : es0.length + 1 - es0.length = 1 := by omega
  rw [hrep]
  dsimp only [List.replicate]
  rw [show getIdx (.arr (es0 ++ [Json.obj []])) es0.length =
    (es0 ++ [Json.obj []]).get? es0.length from rfl]
  rw [listGet_append_len es0 (Json.obj [])]
  dsimp only
  cases step (.obj []) (r :: rs) v with
  | error er => rfl
  | ok e2 =>
    dsimp only
    rw [setIdx.eq_def]
    dsimp only
    rw [if_pos (show es0.length < (es0 ++ [Json.obj []]).length by
      rw [List.length_append, List.length_singleton]; omega)]
    rw [listSet_append_len es0 (Json.obj []) e2]
    rfl

/-! ## Round-trip: pre-creating the container a fresh key would create -/

/-- Descending through an absent plain field behaves exactly as if the
empty object had been appended beforehand. -/
theorem precreate_fld {g : List (String × Json)} {n : String}
    (hp : parseArrayPart n = none) (hget : assocGet g n = none)
    (r : String) (rs : List String) (v : String) :
    step (.obj g) (n :: r :: rs) v =
      step (.obj (g ++ [(n, .obj [])])) (n :: r :: rs) v := by
  rw [step_plain_mid_none (.obj g) n v r rs hp (by rw [getProp_obj]; exact hget)]
  rw [step_plain_mid_obj (Json.obj (g ++ [(n, Json.obj [])])) n v r rs [] hp
    (by rw [getProp_obj]; exact assocGet_append_self hget (Json.obj []))]
  cases step (.obj []) (r :: rs) v with
  | error er => rfl
  | ok c2 =>
    show Except.ok (Json.obj (assocSet g n c2)) =
      Except.ok (Json.obj (assocSet (g ++ [(n, Json.obj [])]) n c2))
    rw [assocSet_append_fresh hget c2, assocSet_append_self hget (Json.obj []) c2]

/-- Touching an absent field through an array segment behaves exactly as if
the empty array had been appended beforehand. -/
theorem precreate_arr {g : List (String × Json)} {n : String} (hn : n ≠ "")
    (hget : assocGet g n = none) (i : Nat) (rest : List String) (v : String) :
    step (.obj g) (idxKey n i :: rest) v =
      step (.obj (g ++ [(n, .arr [])])) (idxKey n i :: rest) v := by
  have hL : (if jsTruthy (getProp (.obj g) n) then Except.ok (Json.obj g)
      else setProp (.obj g) n (.arr [])) = .ok (.obj (g ++ [(n, .arr [])])) := by
    rw [getProp_obj, hget]
    rw [if_neg (show ¬jsTruthy none = true by rw [show jsTruthy none = false from rfl]; simp)]
    rw [show setProp (.obj g) n (.arr []) = .ok (.obj (assocSet g n (.arr []))) from rfl]
    rw [assocSet_append_fresh hget]
  have hR : (if jsTruthy (getProp (.obj (g ++ [(n, .arr [])])) n)
      then Except.ok (Json.obj (g ++ [(n, .arr [])]))
      else setProp (.obj (g ++ [(n, .arr [])])) n (.arr [])) =
      .ok (.obj (g ++ [(n, .arr [])])) := by
    rw [getProp_obj, assocGet_append_self hget]
    rw [if_pos (show jsTruthy (some (Json.arr [])) = true from rfl)]
  cases rest with
  | nil =>
    conv_lhs => rw [step.eq_def]
    conv_rhs => rw [step.eq_def]
    dsimp only
    rw [parse_idxKey n hn i]
    dsimp only
    rw [hL, hR]
  | cons r rs =>
    conv_lhs => rw [step.eq_def]
    conv_rhs => rw [step.eq_def]
    dsimp only
    rw [parse_idxKey n hn i]
    dsimp only
    rw [hL, hR]

/-- Descending into a fresh element at the end of an array behaves exactly
as if the empty-object slot had been pushed beforehand. -/
theorem precreate_idx_mid {g : List (String × Json)} {n : String} {es0 : List Json}
    {i : Nat} (hn : n ≠ "") (hg : assocGet g n = some (.arr es0))
    (hlen : es0.length = i) (r : String) (rs : List String) (v : String) :
    step (.obj g) (idxKey n i :: r :: rs) v =
      step (.obj (assocSet g n (.arr (es0 ++ [.obj []])))) (idxKey n i :: r :: rs) v := by
  rw [step_idx_fresh_elem hn hg hlen r rs v]
  rw [step_arr_mid_exists hn
    (assocGet_set_self g n (Json.arr (es0 ++ [Json.obj []])))
    (show (es0 ++ [Json.obj []]).get? i = some (Json.obj []) from by
      rw [← hlen]; exact listGet_append_len es0 (Json.obj [])) r rs v]
  cases step (.obj []) (r :: rs) v with
  | error er => rfl
  | ok e2 =>
    dsimp only
    rw [assocSet_set_same]
    rw [← hlen, listSet_append_len es0 (Json.obj []) e2]
/-! ## Round-trip: framing a step through already-built structure -/

/-- Stepping along a descending path and then a remainder equals stepping
the remainder at the reached subtree and writing the result back. -/
theorem frame_full : ∀ (ρ : List Seg), (∀ s ∈ ρ, goodSeg s = true) →
    ∀ (t u : Json), Descends t ρ u → ∀ (σ : List String) (v : String), σ ≠ [] →
    step t (ρ.map segStr ++ σ) v =
      (match step u σ v with
       | .ok u2 => .ok (replacePath t ρ u2)
       | .error e => .error e) := by
  intro ρ
  induction ρ with
  | nil =>
    intro _ t u hd σ v hσ
    cases hd
    rw [List.map_nil, List.nil_append]
    cases hs : step t σ v with
    | ok u2 =>
      dsimp only
      rw [replacePath_nil]
    | error e => rfl
  | cons s ρ ih =>
    intro hρ t u hd σ v hσ
    have hρ2 : ∀ s2 ∈ ρ, goodSeg s2 = true := fun s2 hs2 => hρ s2 (by simp [hs2])
    cases hd with
    | fld g n ρ w u hget hdw =>
      have hgs : goodSeg (Seg.fld n) = true := hρ _ (by simp)
      have hp : parseArrayPart n = none := (goodName_spec (by rw [goodSeg] at hgs; exact hgs)).2.2
      rw [List.map_cons, List.cons_append]
      dsimp only [segStr]
      cases he : ρ.map segStr ++ σ with
      | nil => exact absurd (List.append_eq_nil.mp he).2 hσ
      | cons r rs =>
        rw [step_plain_mid_obj (.obj g) n v r rs w hp (by rw [getProp_obj]; exact hget)]
        rw [← he, ih hρ2 (.obj w) u hdw σ v hσ]
        cases hs : step u σ v with
        | ok u2 =>
          dsimp only
          rw [replacePath_fld_some hget]
          rfl
        | error e => rfl
    | idx g n i es e u ρ hget hgete hde =>
      have hgs : goodSeg (Seg.idx n i) = true := hρ _ (by simp)
      have hn : n ≠ "" := (goodName_spec (by rw [goodSeg] at hgs; exact hgs)).1
      rw [List.map_cons, List.cons_append]
      dsimp only [segStr]
      cases he : ρ.map segStr ++ σ with
      | nil => exact absurd (List.append_eq_nil.mp he).2 hσ
      | cons r rs =>
        rw [step_arr_mid_exists hn hget hgete r rs v]
        rw [← he, ih hρ2 e u hde σ v hσ]
        cases hs : step u σ v with
        | ok u2 =>
          dsimp only
          rw [replacePath_idx_some hget hgete]
        | error e2 => rfl

/-- If the inner steps agree at the reached object and its pre-created
variant, the outer steps agree at the whole tree and its rewrite. -/
theorem step_deep_congr (ρ : List Seg) (hρ : ∀ s ∈ ρ, goodSeg s = true)
    (t : Json) (g g2 : List (String × Json)) (hd : Descends t ρ (.obj g))
    (σ : List String) (v : String) (hσ : σ ≠ [])
    (hinner : step (.obj g) σ v = step (.obj g2) σ v) :
    step t (ρ.map segStr ++ σ) v =
      step (replacePath t ρ (.obj g2)) (ρ.map segStr ++ σ) v := by
  rw [frame_full ρ hρ t _ hd σ v hσ,
    frame_full ρ hρ _ _ (descends_replace hd g2) σ v hσ, hinner]
  cases step (.obj g2) σ v with
  | ok u2 =>
    dsimp only
    rw [replace_replace hd]
  | error e => rfl

/-! ## Round-trip: rewriting a subtree with itself changes nothing -/

theorem assocSet_get_id {α : Type} : ∀ {g : List (String × α)} {k : String} {w : α},
    assocGet g k = some w → assocSet g k w = g
  | [], k, w, h => by simp [assocGet] at h
  | (k0, x) :: rest, k, w, h => by
    by_cases h0 : k0 = k
    · subst h0
      rw [assocGet, if_pos rfl] at h
      rw [assocSet, if_pos rfl, Option.some.inj h]
    · rw [assocGet, if_neg h0] at h
      rw [assocSet, if_neg h0, assocSet_get_id h]

theorem listSet_get_id {α : Type} : ∀ {es : List α} {i : Nat} {e : α},
    es.get? i = some e → es.set i e = es
  | [], i, e, h => by simp [List.get?] at h
  | x :: es, 0, e, h => by
    rw [List.get?] at h
    rw [List.set, Option.some.inj h]
  | x :: es, i + 1, e, h => by
    rw [List.get?] at h
    rw [List.set, listSet_get_id h]

theorem replace_id {t : Json} {ρ : List Seg} {u : Json} (h : Descends t ρ u) :
    replacePath t ρ u = t := by
  induction h with
  | nil t => exact replacePath_nil t t
  | fld g n ρ w u hget hd ih =>
    rw [replacePath_fld_some hget, ih, assocSet_get_id hget]
  | idx g n i es e u ρ hget hgete hd ih =>
    rw [replacePath_idx_some hget hgete, ih, listSet_get_id hgete,
      assocSet_get_id hget]

/-- Splitting a key chained from a good segment path and good extra parts
recovers exactly the parts. -/
theorem splitDot_chain_aux (ρ : List Seg) (hρ : ∀ s ∈ ρ, goodSeg s = true)
    (σ : List String) (hσ : σ ≠ [])
    (hg : ∀ part ∈ σ, part ≠ "" ∧ '.' ∉ part.data) :
    splitDot (chainKey (chainKey "" (ρ.map segStr)) σ) = ρ.map segStr ++ σ := by
  rw [← chainKey_append]
  refine splitDot_chainKey_full _ ?_ ?_
  · intro h
    exact hσ (List.append_eq_nil.mp h).2
  · intro part hp
    rcases List.mem_append.mp hp with h | h
    · exact segs_parts_good hρ part h
    · exact hg part h

/-! ## Round-trip: unflattening the spec pairs rebuilds the document -/

mutual

/-- Folding the flat pairs of one good field value into a tree, below a
descending path whose reached object lacks the field, appends the field. -/
theorem rebuildVal : ∀ (v : Json), goodVal v = true →
    ∀ (n : String), goodName n = true →
    ∀ (ρ : List Seg) (t : Json) (g : List (String × Json)),
    (∀ s ∈ ρ, goodSeg s = true) → Descends t ρ (.obj g) → assocGet g n = none →
    foldT t (specVal (chainKey "" (ρ.map segStr)) n v) =
      .ok (replacePath t ρ (.obj (g ++ [(n, v)])))
  | .str sv, _ => by
    intro n hgn ρ t g hρ hd hfresh
    rw [specVal, foldT_single]
    have hsd : splitDot (mkKey (chainKey "" (List.map segStr ρ)) n) =
        List.map segStr ρ ++ [n] := by
      rw [show mkKey (chainKey "" (List.map segStr ρ)) n =
        chainKey (chainKey "" (List.map segStr ρ)) [n] from rfl]
      refine splitDot_chain_aux ρ hρ [n] (by simp) ?_
      intro part hp
      rw [List.mem_singleton] at hp
      rw [hp]
      exact ⟨(goodName_spec hgn).1, (goodName_spec hgn).2.1⟩
    rw [hsd, frame_full ρ hρ t _ hd [n] sv (by simp)]
    rw [step_plain_final (.obj g) n sv (goodName_spec hgn).2.2]
    rw [show setProp (.obj g) n (.str sv) =
      .ok (.obj (assocSet g n (.str sv))) from rfl]
    rw [assocSet_append_fresh hfresh]
  | .prim r, hgv => by exact absurd hgv (by rw [goodVal]; simp)
  | .obj hs, hgv => by
    intro n hgn ρ t g hρ hd hfresh
    obtain ⟨hne, hnd, hgf⟩ := goodVal_obj_spec hgv
    rw [specVal]
    cases hLs : specFields (mkKey (chainKey "" (List.map segStr ρ)) n) hs with
    | nil =>
      exact absurd hLs
        (specFields_ne_nil hs hgf hne (mkKey (chainKey "" (List.map segStr ρ)) n))
    | cons kv L =>
      obtain ⟨s1, π1, hk1, _, hgs1, hp1⟩ :=
        headFields hs hgf (mkKey (chainKey "" (List.map segStr ρ)) n) kv.1
          (by rw [hLs]; simp)
      have hk2 : kv.1 = chainKey (chainKey "" (List.map segStr ρ))
          (n :: segStr s1 :: π1) := hk1
      have hsd : splitDot kv.1 = List.map segStr ρ ++ (n :: segStr s1 :: π1) := by
        rw [hk2]
        refine splitDot_chain_aux ρ hρ _ (by simp) ?_
        intro part hp
        rcases List.mem_cons.mp hp with h | h
        · rw [h]; exact ⟨(goodName_spec hgn).1, (goodName_spec hgn).2.1⟩
        · rcases List.mem_cons.mp h with h2 | h2
          · rw [h2]; exact segStr_good hgs1
          · exact hp1 part h2
      have hstep : step t (splitDot kv.1) kv.2 =
          step (replacePath t ρ (.obj (g ++ [(n, .obj [])]))) (splitDot kv.1) kv.2 := by
        rw [hsd]
        exact step_deep_congr ρ hρ t g (g ++ [(n, .obj [])]) hd
          (n :: segStr s1 :: π1) kv.2 (by simp)
          (precreate_fld (goodName_spec hgn).2.2 hfresh (segStr s1) π1 kv.2)
      have hd2 : Descends (replacePath t ρ (.obj (g ++ [(n, .obj [])]))) ρ
          (.obj (g ++ [(n, .obj [])])) := descends_replace hd _
      have hd3 : Descends (replacePath t ρ (.obj (g ++ [(n, .obj [])])))
          (ρ ++ [Seg.fld n]) (.obj []) :=
        descends_snoc_fld hd2 rfl (assocGet_append_self hfresh (.obj []))
      have hpfx : chainKey "" (List.map segStr (ρ ++ [Seg.fld n])) =
          mkKey (chainKey "" (List.map segStr ρ)) n := by
        rw [List.map_append, chainKey_append]
        rfl
      have hrec := rebuildFields hs hgf (ρ ++ [Seg.fld n])
        (replacePath t ρ (.obj (g ++ [(n, .obj [])]))) []
        (by
          intro s2 hs2
          rcases List.mem_append.mp hs2 with h | h
          · exact hρ s2 h
          · rw [List.mem_singleton] at h
            rw [h, goodSeg]
            exact hgn)
        hnd hd3 (by intro nv _; rfl)
      rw [hpfx] at hrec
      rw [foldT_cons, hstep, ← foldT_cons, ← hLs, hrec]
      rw [List.nil_append]
      rw [replace_snoc_fld hd2 rfl (assocGet_append_self hfresh (.obj [])) (.obj hs)]
      rw [assocSet_append_self hfresh (Json.obj []) (Json.obj hs)]
      rw [replace_replace hd]
  | .arr es, hgv => by
    intro n hgn ρ t g hρ hd hfresh
    obtain ⟨hnees, hge⟩ := goodVal_arr_spec hgv
    rw [specVal]
    cases hLs : specElems (mkKey (chainKey "" (List.map segStr ρ)) n) 0 es with
    | nil =>
      exact absurd hLs (specElems_ne_nil es hge hnees
        (mkKey (chainKey "" (List.map segStr ρ)) n) 0)
    | cons kv L =>
      obtain ⟨j, π1, _, hk1, hp1⟩ :=
        headElems es hge (chainKey "" (List.map segStr ρ)) n hgn 0 kv.1
          (by rw [hLs]; simp)
      have hsd : splitDot kv.1 = List.map segStr ρ ++ (idxKey n j :: π1) := by
        rw [hk1]
        refine splitDot_chain_aux ρ hρ _ (by simp) ?_
        intro part hp
        rcases List.mem_cons.mp hp with h | h
        · rw [h]
          exact ⟨idxKey_ne_empty n j, idxKey_dotfree (goodName_spec hgn).2.1 j⟩
        · exact hp1 part h
      have hstep : step t (splitDot kv.1) kv.2 =
          step (replacePath t ρ (.obj (g ++ [(n, .arr [])]))) (splitDot kv.1) kv.2 := by
        rw [hsd]
        exact step_deep_congr ρ hρ t g (g ++ [(n, .arr [])]) hd
          (idxKey n j :: π1) kv.2 (by simp)
          (precreate_arr (goodName_spec hgn).1 hfresh j π1 kv.2)
      have hd2 : Descends (replacePath t ρ (.obj (g ++ [(n, .arr [])]))) ρ
          (.obj (g ++ [(n, .arr [])])) := descends_replace hd _
      have hrec := rebuildElems es hge n hgn ρ
        (replacePath t ρ (.obj (g ++ [(n, .arr [])]))) (g ++ [(n, .arr [])]) [] 0
        hρ hd2 (assocGet_append_self hfresh (.arr [])) rfl
      rw [foldT_cons, hstep, ← foldT_cons, ← hLs, hrec]
      rw [List.nil_append]
      rw [assocSet_append_self hfresh (Json.arr []) (Json.arr es)]
      rw [replace_replace hd]

/-- Folding the flat pairs of a good field list appends all its fields in
order. -/
theorem rebuildFields : ∀ (fs : List (String × Json)), goodFieldList fs = true →
    ∀ (ρ : List Seg) (t : Json) (g : List (String × Json)),
    (∀ s ∈ ρ, goodSeg s = true) → (fs.map Prod.fst).Nodup →
    Descends t ρ (.obj g) → (∀ nv ∈ fs, assocGet g nv.1 = none) →
    foldT t (specFields (chainKey "" (ρ.map segStr)) fs) =
      .ok (replacePath t ρ (.obj (g ++ fs)))
  | [], _ => by
    intro ρ t g hρ _ hd _
    rw [specFields, List.append_nil, replace_id hd]
    rfl
  | (n, v) :: rest, hgf => by
    intro ρ t g hρ hnd hd hfresh
    obtain ⟨hgn, hgv, hgr⟩ := goodFieldList_cons_spec hgf
    rw [List.map_cons, List.nodup_cons] at hnd
    rw [specFields, foldT_append]
    rw [rebuildVal v hgv n hgn ρ t g hρ hd (hfresh (n, v) (by simp))]
    show foldT (replacePath t ρ (.obj (g ++ [(n, v)])))
      (specFields (chainKey "" (List.map segStr ρ)) rest) = _
    rw [rebuildFields rest hgr ρ (replacePath t ρ (.obj (g ++ [(n, v)])))
      (g ++ [(n, v)]) hρ hnd.2 (descends_replace hd _)
      (by
        intro nv hm
        rw [assocGet_append_of_none (hfresh nv (by simp [hm]))]
        rw [assocGet, if_neg (fun he => hnd.1 (by
          rw [he]
          exact List.mem_map.mpr ⟨nv, hm, rfl⟩))]
        rfl)]
    rw [replace_replace hd, List.append_assoc, List.singleton_append]

/-- Folding the flat pairs of a good element list onto an existing array of
length `i` appends all the elements in order. -/
theorem rebuildElems : ∀ (es : List Json), goodElemList es = true →
    ∀ (n : String), goodName n = true →
    ∀ (ρ : List Seg) (t : Json) (g : List (String × Json))
      (es0 : List Json) (i : Nat),
    (∀ s ∈ ρ, goodSeg s = true) → Descends t ρ (.obj g) →
    assocGet g n = some (.arr es0) → es0.length = i →
    foldT t (specElems (mkKey (chainKey "" (ρ.map segStr)) n) i es) =
      .ok (replacePath t ρ (.obj (assocSet g n (.arr (es0 ++ es)))))
  | [], _ => by
    intro n _ ρ t g es0 i hρ hd hget _
    rw [specElems, List.append_nil, assocSet_get_id hget, replace_id hd]
    rfl
  | e :: rest, hge => by
    intro n hgn ρ t g es0 i hρ hd hget hlen
    obtain ⟨hg1, hg2⟩ := goodElemList_cons_spec hge
    rw [specElems, foldT_append]
    rw [rebuildElem e hg1 n hgn ρ t g es0 i hρ hd hget hlen]
    show foldT (replacePath t ρ (.obj (assocSet g n (.arr (es0 ++ [e])))))
      (specElems (mkKey (chainKey "" (List.map segStr ρ)) n) (i + 1) rest) = _
    rw [rebuildElems rest hg2 n hgn ρ
      (replacePath t ρ (.obj (assocSet g n (.arr (es0 ++ [e])))))
      (assocSet g n (.arr (es0 ++ [e]))) (es0 ++ [e]) (i + 1)
      hρ (descends_replace hd _) (assocGet_set_self g n _)
      (by rw [List.length_append, List.length_singleton, hlen])]
    rw [assocSet_set_same, replace_replace hd, List.append_assoc,
      List.singleton_append]

/-- Folding the flat pairs of one good element onto an existing array of
length `i` pushes exactly that element. -/
theorem rebuildElem : ∀ (e : Json), goodElem e = true →
    ∀ (n : String), goodName n = true →
    ∀ (ρ : List Seg) (t : Json) (g : List (String × Json))
      (es0 : List Json) (i : Nat),
    (∀ s ∈ ρ, goodSeg s = true) → Descends t ρ (.obj g) →
    assocGet g n = some (.arr es0) → es0.length = i →
    foldT t (specElem (mkKey (chainKey "" (ρ.map segStr)) n) i e) =
      .ok (replacePath t ρ (.obj (assocSet g n (.arr (es0 ++ [e])))))
  | .str sv, _ => by
    intro n hgn ρ t g es0 i hρ hd hget hlen
    rw [specElem, foldT_single]
    have hsd : splitDot (idxKey (mkKey (chainKey "" (List.map segStr ρ)) n) i) =
        List.map segStr ρ ++ [idxKey n i] := by
      rw [idxKey_mkKey]
      rw [show mkKey (chainKey "" (List.map segStr ρ)) (idxKey n i) =
        chainKey (chainKey "" (List.map segStr ρ)) [idxKey n i] from rfl]
      refine splitDot_chain_aux ρ hρ _ (by simp) ?_
      intro part hp
      rw [List.mem_singleton] at hp
      rw [hp]
      exact ⟨idxKey_ne_empty n i, idxKey_dotfree (goodName_spec hgn).2.1 i⟩
    rw [hsd, frame_full ρ hρ t _ hd [idxKey n i] sv (by simp)]
    rw [step_arr_final (goodName_spec hgn).1 hget hlen sv]
  | .prim r, hge => by exact absurd hge (by rw [goodElem]; simp)
  | .arr es2, hge => by exact absurd hge (by rw [goodElem]; simp)
  | .obj hs, hge => by
    intro n hgn ρ t g es0 i hρ hd hget hlen
    obtain ⟨hne, hnd, hgf⟩ := goodElem_obj_spec hge
    rw [specElem]
    cases hLs : specFields (idxKey (mkKey (chainKey "" (List.map segStr ρ)) n) i) hs with
    | nil =>
      exact absurd hLs (specFields_ne_nil hs hgf hne _)
    | cons kv L =>
      obtain ⟨s1, π1, hk1, _, hgs1, hp1⟩ :=
        headFields hs hgf (idxKey (mkKey (chainKey "" (List.map segStr ρ)) n) i) kv.1
          (by rw [hLs]; simp)
      have hk2 : kv.1 = chainKey (chainKey "" (List.map segStr ρ))
          (idxKey n i :: segStr s1 :: π1) := by
        rw [hk1, idxKey_mkKey]
        rfl
      have hsd : splitDot kv.1 =
          List.map segStr ρ ++ (idxKey n i :: segStr s1 :: π1) := by
        rw [hk2]
        refine splitDot_chain_aux ρ hρ _ (by simp) ?_
        intro part hp
        rcases List.mem_cons.mp hp with h | h
        · rw [h]
          exact ⟨idxKey_ne_empty n i, idxKey_dotfree (goodName_spec hgn).2.1 i⟩
        · rcases List.mem_cons.mp h with h2 | h2
          · rw [h2]; exact segStr_good hgs1
          · exact hp1 part h2
      have hstep : step t (splitDot kv.1) kv.2 =
          step (replacePath t ρ (.obj (assocSet g n (.arr (es0 ++ [.obj []])))))
            (splitDot kv.1) kv.2 := by
        rw [hsd]
        exact step_deep_congr ρ hρ t g (assocSet g n (.arr (es0 ++ [.obj []]))) hd
          (idxKey n i :: segStr s1 :: π1) kv.2 (by simp)
          (precreate_idx_mid (goodName_spec hgn).1 hget hlen (segStr s1) π1 kv.2)
      have hd2 : Descends
          (replacePath t ρ (.obj (assocSet g n (.arr (es0 ++ [.obj []]))))) ρ
          (.obj (assocSet g n (.arr (es0 ++ [.obj []])))) := descends_replace hd _
      have hgetend : (es0 ++ [Json.obj []]).get? i = some (Json.obj []) := by
        rw [← hlen]
        exact listGet_append_len es0 (Json.obj [])
      have hd3 : Descends
          (replacePath t ρ (.obj (assocSet g n (.arr (es0 ++ [.obj []])))))
          (ρ ++ [Seg.idx n i]) (.obj []) :=
        descends_snoc_idx hd2 rfl (assocGet_set_self g n _) hgetend
      have hpfx : chainKey "" (List.map segStr (ρ ++ [Seg.idx n i])) =
          idxKey (mkKey (chainKey "" (List.map segStr ρ)) n) i := by
        rw [List.map_append, chainKey_append, idxKey_mkKey]
        rfl
      have hrec := rebuildFields hs hgf (ρ ++ [Seg.idx n i])
        (replacePath t ρ (.obj (assocSet g n (.arr (es0 ++ [.obj []]))))) []
        (by
          intro s2 hs2
          rcases List.mem_append.mp hs2 with h | h
          · exact hρ s2 h
          · rw [List.mem_singleton] at h
            rw [h, goodSeg]
            exact hgn)
        hnd hd3 (by intro nv _; rfl)
      rw [hpfx] at hrec
      rw [foldT_cons, hstep, ← foldT_cons, ← hLs, hrec]
      rw [List.nil_append]
      rw [replace_snoc_idx hd2 rfl (assocGet_set_self g n _) hgetend (.obj hs)]
      rw [assocSet_set_same]
      rw [show (es0 ++ [Json.obj []]).set i (Json.obj hs) = es0 ++ [Json.obj hs] from by
        rw [← hlen]; exact listSet_append_len es0 (Json.obj []) (Json.obj hs)]
      rw [replace_replace hd]

end

/-! ## Round-trip: main theorem and the C1 / C5 claims -/

/-- The exact round-trip on the good domain: flattening a document whose
fields all have good names and values and unflattening the result restores
the document. -/
theorem roundtrip_good (fs : List (String × Json)) (h : goodRoot fs = true) :
    unflattenJson (flattenJson (.obj fs) "") = .ok (.obj fs) := by
  rw [goodRoot] at h
  simp only [Bool.and_eq_true, decide_eq_true_eq] at h
  obtain ⟨hnd, hgf⟩ := h
  have hflat : flattenJson (.obj fs) "" = specFields "" fs := by
    rw [flattenJson]
    rw [flattenFields_eq fs hgf "" [] (by simp) (ndFields fs hgf hnd "")]
    rw [List.nil_append]
  rw [hflat]
  show foldT (.obj []) (specFields (chainKey "" (List.map segStr [])) fs) = _
  rw [rebuildFields fs hgf [] (.obj []) [] (by simp) hnd (.nil _) (by intro nv _; rfl)]
  rw [replacePath_nil, List.nil_append]

/-- C1 counterexample: a document with an empty-object value is not
restored by the round-trip — flattening emits no key for the empty
container, so unflattening rebuilds the top-level object without it. -/
theorem roundtrip_fails_on_empty_container :
    unflattenJson (flattenJson (.obj [("a", .obj [])]) "") ≠
      .ok (.obj [("a", .obj [])]) := by decide

/-- C1 (amended): for documents whose fields, recursively, have nonempty
dot-free non-array-pattern names with distinct names per object, and whose
values are strings, nonempty such objects, or nonempty arrays of strings
and such objects, `unflattenJson (flattenJson doc)` returns exactly `doc`.
(Empty containers, dotted or `name[i]`-shaped field names, nested arrays,
and non-string primitives are excluded: each of those changes shape.) -/
theorem roundtrip_exact_on_good_documents (fs : List (String × Json))
    (h : goodRoot fs = true) :
    unflattenJson (flattenJson (.obj fs) "") = .ok (.obj fs) :=
  roundtrip_good fs h

theorem roundtrip_exact_on_good_documents_witness :
    goodRoot [("a", Json.str "x"),
      ("b", Json.arr [Json.str "u", Json.obj [("c", Json.str "y")]])] = true ∧
    unflattenJson (flattenJson (.obj [("a", Json.str "x"),
      ("b", Json.arr [Json.str "u", Json.obj [("c", Json.str "y")]])]) "") =
      .ok (.obj [("a", Json.str "x"),
        ("b", Json.arr [Json.str "u", Json.obj [("c", Json.str "y")]])]) :=
  ⟨by decide,
   roundtrip_exact_on_good_documents
     [("a", Json.str "x"),
      ("b", Json.arr [Json.str "u", Json.obj [("c", Json.str "y")]])]
     (by decide)⟩

/-- C5 counterexample: a field name containing a dot breaks idempotence of
the flatten map: `{"a": "x", "a.b": "y"}` flattens to two keys, but
unflattening merges them into a nested object, whose flattening has only
the key `"a.b"`. -/
theorem reflatten_changes_dotted_key_document :
    unflattenJson (flattenJson (.obj [("a", .str "x"), ("a.b", .str "y")]) "") =
      .ok (.obj [("a", .obj [("b", .str "y")])]) ∧
    flattenJson (.obj [("a", .obj [("b", .str "y")])]) "" ≠
      flattenJson (.obj [("a", .str "x"), ("a.b", .str "y")]) "" :=
  ⟨by decide, by decide⟩

/-- C5 (amended): on the good domain — documents with recursively good,
distinct field names and string/object/array-of-string-or-object values —
`flattenJson (unflattenJson (flattenJson doc))` equals `flattenJson doc`,
because the inner round-trip restores `doc` exactly.  On arbitrary
documents the equation fails (dotted field names) or the unflattening
throws (array-pattern names colliding with strings). -/
theorem reflatten_idempotent_on_good_documents (fs : List (String × Json))
    (h : goodRoot fs = true) :
    (unflattenJson (flattenJson (.obj fs) "")).map (fun j => flattenJson j "") =
      .ok (flattenJson (.obj fs) "") := by
  rw [roundtrip_good fs h]
  rfl

theorem reflatten_idempotent_on_good_documents_witness :
    goodRoot [("t", Json.str "v"),
      ("lst", Json.arr [Json.str "p", Json.str "q"])] = true ∧
    (unflattenJson (flattenJson (.obj [("t", Json.str "v"),
        ("lst", Json.arr [Json.str "p", Json.str "q"])]) "")).map
        (fun j => flattenJson j "") =
      .ok (flattenJson (.obj [("t", Json.str "v"),
        ("lst", Json.arr [Json.str "p", Json.str "q"])]) "") :=
  ⟨by decide,
   reflatten_idempotent_on_good_documents
     [("t", Json.str "v"), ("lst", Json.arr [Json.str "p", Json.str "q"])]
     (by decide)⟩

end I18n
